import Mathlib

/-!
Verification of the stereoscope image core against its specification.

The development shallowly embeds:
* `pkg/file/deferred_partial_read_closer.go` — the lazy, range-bounded
  content reader, modelled as an explicit state machine over a model of the
  underlying OS file, together with a trace of resource events
  (open / seek / close) so that laziness is observable;
* the `fetchFileContentsByPath` / `fetchMultipleFileContentsByPath`
  helpers of the image package (tree lookup and catalog access are taken
  as abstract functions, since `FileTree.File` and the `FileCatalog` are
  external to the given sources);
* the squasher of the specification (its Go source is not part of the
  given sources, only its integration test; it is therefore modelled from
  the specification's §4.2 algorithm, over change-set entry lists as
  delivered by the archive collaborator of §6).
-/

namespace Stereoscope

/-! ## Deferred partial read closer (from pkg/file/deferred_partial_read_closer.go) -/

/-- Resource events observable on the underlying file system. -/
inductive FsEvent where
  | openEv (path : String)
  | seekEv (pos : Int)
  | closeEv
deriving DecidableEq

/-- Errors a read or close can surface.  `eof` models `io.EOF`, `errClosed`
models `os.ErrClosed` ("file already closed"), `openFail` / `seekFail`
model failures of `os.Open` / `(*os.File).Seek`. -/
inductive RErr where
  | eof
  | errClosed
  | openFail
  | seekFail
deriving DecidableEq

/-- State of a `deferredPartialReadCloser` together with the model of its
environment.  `hasReader` / `hasFile` model `d.reader != nil` /
`d.file != nil`; `filePos`, `fileClosed` model the OS-level file handle;
`limN` models the remaining byte budget of the `io.LimitReader`;
`fileLen` is the length of the file at `path` and `openOk` tells whether
`os.Open(path)` succeeds. -/
structure DeferredPartialReadCloser where
  path : String
  start : Int
  size : Int
  hasReader : Bool
  hasFile : Bool
  filePos : Nat
  fileClosed : Bool
  limN : Int
  fileLen : Nat
  openOk : Bool
deriving DecidableEq

/-- `newDeferredPartialReadCloser` from the source: builds the struct with
only `path`, `start`, `size` set; it performs no resource access, hence the
empty event trace. -/
def newDeferredPartialReadCloser (path : String) (start size : Int)
    (fileLen : Nat) (openOk : Bool) : DeferredPartialReadCloser × List FsEvent :=
  ({ path := path, start := start, size := size, hasReader := false,
     hasFile := false, filePos := 0, fileClosed := false, limN := 0,
     fileLen := fileLen, openOk := openOk }, [])

/-- Result of one `Read` call: bytes returned, error, next state, events. -/
structure ReadResult where
  n : Nat
  err : Option RErr
  st : DeferredPartialReadCloser
  evs : List FsEvent
deriving DecidableEq

/-- One step of `d.reader.Read(b)`, i.e. `io.LimitReader(d.file, d.size)`
over the model of `*os.File`: an exhausted limit returns `io.EOF`; a read
on a closed file returns `os.ErrClosed`; a read at or past the end of the
file returns `io.EOF`; otherwise up to `min bufLen limN` bytes are read. -/
def limitedRead (d : DeferredPartialReadCloser) (bufLen : Nat) :
    Nat × Option RErr × DeferredPartialReadCloser :=
  if d.limN ≤ 0 then (0, some .eof, d)
  else
    let p := min bufLen d.limN.toNat
    if d.fileClosed then (0, some .errClosed, d)
    else if d.fileLen ≤ d.filePos then (0, some .eof, d)
    else
      let n := min p (d.fileLen - d.filePos)
      (n, none, { d with filePos := d.filePos + n, limN := d.limN - n })

/-- The tail of `Read` after the lazy open: perform the limited read, then,
exactly as in the source, on `io.EOF` force `d.file.Close()` and replace
the error with the close result unless the close reports `os.ErrClosed`. -/
def readCore (d : DeferredPartialReadCloser) (evs0 : List FsEvent) (bufLen : Nat) :
    ReadResult :=
  let r := limitedRead d bufLen
  match r.2.1 with
  | some .eof =>
      if r.2.2.fileClosed then ⟨r.1, some .eof, r.2.2, evs0⟩
      else ⟨r.1, none, { r.2.2 with fileClosed := true }, evs0 ++ [.closeEv]⟩
  | e => ⟨r.1, e, r.2.2, evs0⟩

/-- `Read` from the source: on the first call (`d.reader == nil`) open the
file and seek to `start`; failures of open or seek are returned without
storing the handle.  Afterwards delegate to the limit reader. -/
def DeferredPartialReadCloser.Read (d : DeferredPartialReadCloser) (bufLen : Nat) :
    ReadResult :=
  if d.hasReader = false then
    if d.openOk = false then ⟨0, some .openFail, d, [.openEv d.path]⟩
    else if d.start < 0 then ⟨0, some .seekFail, d, [.openEv d.path, .seekEv d.start]⟩
    else
      readCore
        { d with hasReader := true, hasFile := true, fileClosed := false,
                 filePos := d.start.toNat, limN := d.size }
        [.openEv d.path, .seekEv d.start] bufLen
  else readCore d [] bufLen

/-- `Close` from the source: a `nil` file handle is an immediate no-op;
otherwise `d.file.Close()` is called, `os.ErrClosed` is swallowed, and both
`d.file` and `d.reader` are set to `nil`.  Closing an open OS handle is
modelled as succeeding. -/
def DeferredPartialReadCloser.Close (d : DeferredPartialReadCloser) :
    Option RErr × DeferredPartialReadCloser × List FsEvent :=
  if d.hasFile = false then (none, d, [])
  else if d.fileClosed then
    (none, { d with hasFile := false, hasReader := false }, [])
  else
    (none, { d with fileClosed := true, hasFile := false, hasReader := false },
      [.closeEv])

/-- Remaining byte budget of a reader state: before the first read the full
`size`, afterwards the limit reader's remaining count. -/
def rem (d : DeferredPartialReadCloser) : Int :=
  if d.hasReader then d.limN else d.size

/-- Total bytes handed out by a sequence of `Read` calls with the given
buffer sizes. -/
def readTotal (d : DeferredPartialReadCloser) : List Nat → Nat
  | [] => 0
  | b :: bs => (d.Read b).n + readTotal (d.Read b).st bs

/-- Total bytes handed out by `fuel` consecutive `Read` calls with a fixed
buffer size. -/
def drainTotal (d : DeferredPartialReadCloser) (b : Nat) : Nat → Nat
  | 0 => 0
  | fuel + 1 => (d.Read b).n + drainTotal (d.Read b).st b fuel

theorem limitedRead_spec (d : DeferredPartialReadCloser) (b : Nat) :
    ((limitedRead d b).1 : Int) + max 0 (limitedRead d b).2.2.limN ≤ max 0 d.limN ∧
      (limitedRead d b).2.2.hasReader = d.hasReader := by
  unfold limitedRead
  split_ifs <;> simp <;> omega

theorem rem_readCore (d : DeferredPartialReadCloser) (evs : List FsEvent) (b : Nat) :
    (readCore d evs b).n = (limitedRead d b).1 ∧
      rem (readCore d evs b).st = rem (limitedRead d b).2.2 := by
  unfold readCore
  cases h : (limitedRead d b).2.1 with
  | none => simp [h]
  | some e => cases e <;> simp [h, rem] <;> split_ifs <;> simp [rem]

theorem rem_read_step (d : DeferredPartialReadCloser) (b : Nat) :
    ((d.Read b).n : Int) + max 0 (rem (d.Read b).st) ≤ max 0 (rem d) := by
  unfold DeferredPartialReadCloser.Read
  by_cases hr : d.hasReader = false
  · rw [if_pos hr]
    by_cases ho : d.openOk = false
    · rw [if_pos ho]; simp [rem, hr]
    · rw [if_neg ho]
      by_cases hs : d.start < 0
      · rw [if_pos hs]; simp [rem, hr]
      · rw [if_neg hs]
        have h1 := rem_readCore
          { d with hasReader := true, hasFile := true, fileClosed := false,
                   filePos := d.start.toNat, limN := d.size }
          [.openEv d.path, .seekEv d.start] b
        have h2 := limitedRead_spec
          { d with hasReader := true, hasFile := true, fileClosed := false,
                   filePos := d.start.toNat, limN := d.size } b
        rw [h1.1, h1.2]
        have h3 : rem (limitedRead
            { d with hasReader := true, hasFile := true, fileClosed := false,
                     filePos := d.start.toNat, limN := d.size } b).2.2 =
            (limitedRead
            { d with hasReader := true, hasFile := true, fileClosed := false,
                     filePos := d.start.toNat, limN := d.size } b).2.2.limN := by
          simp [rem, h2.2]
        rw [h3]
        have h4 : rem d = d.size := by simp [rem, hr]
        rw [h4]
        exact le_trans h2.1 (by simp)
  · rw [if_neg hr]
    have hr' : d.hasReader = true := by simpa using hr
    have h1 := rem_readCore d [] b
    have h2 := limitedRead_spec d b
    rw [h1.1, h1.2]
    have h3 : rem (limitedRead d b).2.2 = (limitedRead d b).2.2.limN := by
      simp [rem, h2.2, hr']
    rw [h3]
    have h4 : rem d = d.limN := by simp [rem, hr']
    rw [h4]
    exact h2.1

theorem readTotal_le (bs : List Nat) :
    ∀ d : DeferredPartialReadCloser, (readTotal d bs : Int) ≤ max 0 (rem d) := by
  induction bs with
  | nil => intro d; simp [readTotal]
  | cons b bs ih =>
      intro d
      have h1 := rem_read_step d b
      have h2 := ih (d.Read b).st
      simp only [readTotal]
      push_cast
      omega

/-- A reader state whose logical range is used up: every further `Read`
returns zero bytes. -/
def exhausted (d : DeferredPartialReadCloser) : Prop :=
  d.hasReader = true ∧ (d.limN ≤ 0 ∨ d.fileLen ≤ d.filePos)

theorem read_exhausted (d : DeferredPartialReadCloser) (b : Nat)
    (h : exhausted d) : (d.Read b).n = 0 ∧ exhausted (d.Read b).st := by
  obtain ⟨hr, hrest⟩ := h
  unfold DeferredPartialReadCloser.Read readCore limitedRead
  rw [if_neg (by simp [hr])]
  by_cases hn : d.limN ≤ 0
  · rw [if_pos hn]
    by_cases hc : d.fileClosed <;> simp [hc, exhausted, hr, hn]
  · rw [if_neg hn]
    have hend : d.fileLen ≤ d.filePos := by omega
    by_cases hc : d.fileClosed
    · simp [hc, exhausted, hr, hend]
    · simp [hc, hend, exhausted, hr]

theorem drain_exhausted (b : Nat) :
    ∀ (fuel : Nat) (d : DeferredPartialReadCloser), exhausted d →
      drainTotal d b fuel = 0 := by
  intro fuel
  induction fuel with
  | zero => intro d _; rfl
  | succ fuel ih =>
      intro d h
      have h1 := read_exhausted d b h
      simp only [drainTotal, h1.1, ih _ h1.2]

theorem limitedRead_fresh (d : DeferredPartialReadCloser) (b : Nat)
    (hc : d.fileClosed = false) (hz : 0 ≤ d.limN) (hb : d.limN.toNat ≤ b) :
    (limitedRead d b).1 = min d.limN.toNat (d.fileLen - d.filePos) ∧
      ((limitedRead d b).2.2.limN ≤ 0 ∨
        (limitedRead d b).2.2.fileLen ≤ (limitedRead d b).2.2.filePos) := by
  unfold limitedRead
  split_ifs with h1 h2 h3
  · simp
    omega
  · simp_all
  · simp
    omega
  · simp
    omega

theorem readCore_preserve (d : DeferredPartialReadCloser) (evs : List FsEvent) (b : Nat) :
    (readCore d evs b).n = (limitedRead d b).1 ∧
      (readCore d evs b).st.limN = (limitedRead d b).2.2.limN ∧
      (readCore d evs b).st.filePos = (limitedRead d b).2.2.filePos ∧
      (readCore d evs b).st.fileLen = (limitedRead d b).2.2.fileLen ∧
      (readCore d evs b).st.hasReader = (limitedRead d b).2.2.hasReader := by
  unfold readCore
  cases h : (limitedRead d b).2.1 with
  | none => simp [h]
  | some e =>
      cases e <;> simp [h] <;> split_ifs <;> simp

theorem limitedRead_eq_data (d : DeferredPartialReadCloser) (b : Nat)
    (h1 : ¬ d.limN ≤ 0) (h2 : d.fileClosed = false) (h3 : ¬ d.fileLen ≤ d.filePos) :
    limitedRead d b = (min (min b d.limN.toNat) (d.fileLen - d.filePos), none,
      { d with filePos := d.filePos + min (min b d.limN.toNat) (d.fileLen - d.filePos),
               limN := d.limN - min (min b d.limN.toNat) (d.fileLen - d.filePos) }) := by
  unfold limitedRead
  rw [if_neg h1, if_neg (by simp [h2]), if_neg h3]

theorem limitedRead_eq_limDone (d : DeferredPartialReadCloser) (b : Nat)
    (h1 : d.limN ≤ 0) : limitedRead d b = (0, some .eof, d) := by
  unfold limitedRead
  rw [if_pos h1]

theorem limitedRead_eq_fileEnd (d : DeferredPartialReadCloser) (b : Nat)
    (h1 : ¬ d.limN ≤ 0) (h2 : d.fileClosed = false) (h3 : d.fileLen ≤ d.filePos) :
    limitedRead d b = (0, some .eof, d) := by
  unfold limitedRead
  rw [if_neg h1, if_neg (by simp [h2]), if_pos h3]

theorem limitedRead_eq_closed (d : DeferredPartialReadCloser) (b : Nat)
    (h1 : ¬ d.limN ≤ 0) (h2 : d.fileClosed = true) :
    limitedRead d b = (0, some .errClosed, d) := by
  unfold limitedRead
  rw [if_neg h1, if_pos (by simp [h2])]

theorem readCore_eq_none (d : DeferredPartialReadCloser) (evs : List FsEvent) (b : Nat)
    (h : (limitedRead d b).2.1 = none) :
    readCore d evs b = ⟨(limitedRead d b).1, none, (limitedRead d b).2.2, evs⟩ := by
  unfold readCore
  dsimp only
  rw [h]

theorem readCore_eq_eofOpen (d : DeferredPartialReadCloser) (evs : List FsEvent) (b : Nat)
    (h : (limitedRead d b).2.1 = some .eof) (hc : (limitedRead d b).2.2.fileClosed = false) :
    readCore d evs b = ⟨(limitedRead d b).1, none,
      { (limitedRead d b).2.2 with fileClosed := true }, evs ++ [.closeEv]⟩ := by
  unfold readCore
  dsimp only
  rw [h]
  simp [hc]

theorem readCore_eq_eofClosed (d : DeferredPartialReadCloser) (evs : List FsEvent) (b : Nat)
    (h : (limitedRead d b).2.1 = some .eof) (hc : (limitedRead d b).2.2.fileClosed = true) :
    readCore d evs b = ⟨(limitedRead d b).1, some .eof, (limitedRead d b).2.2, evs⟩ := by
  unfold readCore
  dsimp only
  rw [h]
  simp [hc]

theorem readCore_eq_errClosed (d : DeferredPartialReadCloser) (evs : List FsEvent) (b : Nat)
    (h : (limitedRead d b).2.1 = some .errClosed) :
    readCore d evs b = ⟨(limitedRead d b).1, some .errClosed, (limitedRead d b).2.2, evs⟩ := by
  unfold readCore
  dsimp only
  rw [h]

theorem read_eq_opened (d : DeferredPartialReadCloser) (b : Nat)
    (hr : d.hasReader = true) : d.Read b = readCore d [] b := by
  unfold DeferredPartialReadCloser.Read
  rw [if_neg (by simp [hr])]

theorem read_eq_unopened (d : DeferredPartialReadCloser) (b : Nat)
    (hr : d.hasReader = false) (ho : d.openOk = true) (hs : ¬ d.start < 0) :
    d.Read b = readCore
      { d with hasReader := true, hasFile := true, fileClosed := false,
               filePos := d.start.toNat, limN := d.size }
      [.openEv d.path, .seekEv d.start] b := by
  unfold DeferredPartialReadCloser.Read
  rw [if_pos hr, if_neg (by simp [ho]), if_neg hs]

theorem readCore_evs (d : DeferredPartialReadCloser) (evs : List FsEvent) (b : Nat) :
    (readCore d evs b).evs = evs ∨ (readCore d evs b).evs = evs ++ [.closeEv] := by
  unfold readCore
  cases h : (limitedRead d b).2.1 with
  | none => simp [h]
  | some e => cases e <;> simp [h] <;> split_ifs <;> simp

theorem read_fresh (d : DeferredPartialReadCloser) (b : Nat)
    (hr : d.hasReader = false) (ho : d.openOk = true)
    (hs : 0 ≤ d.start) (hz : 0 ≤ d.size) (hb : d.size.toNat ≤ b) :
    (d.Read b).n = min d.size.toNat (d.fileLen - d.start.toNat) ∧
      exhausted (d.Read b).st := by
  have hread : d.Read b = readCore
      { d with hasReader := true, hasFile := true, fileClosed := false,
               filePos := d.start.toNat, limN := d.size }
      [.openEv d.path, .seekEv d.start] b := by
    unfold DeferredPartialReadCloser.Read
    rw [if_pos hr, if_neg (by simp [ho]), if_neg (by omega)]
  have hlim := limitedRead_fresh
    { d with hasReader := true, hasFile := true, fileClosed := false,
             filePos := d.start.toNat, limN := d.size } b (by simp) (by simpa)
    (by simp; omega)
  have hpres := readCore_preserve
    { d with hasReader := true, hasFile := true, fileClosed := false,
             filePos := d.start.toNat, limN := d.size }
    [.openEv d.path, .seekEv d.start] b
  have hhr := (limitedRead_spec
    { d with hasReader := true, hasFile := true, fileClosed := false,
             filePos := d.start.toNat, limN := d.size } b).2
  rw [hread]
  constructor
  · rw [hpres.1, hlim.1]
  · refine ⟨?_, ?_⟩
    · rw [hpres.2.2.2.2, hhr]
    · rw [hpres.2.1, hpres.2.2.1, hpres.2.2.2.1]
      exact hlim.2

/-- Result of the `k`-th `Read` call (0-based) in a run of consecutive
reads with a fixed buffer size. -/
def readN (d : DeferredPartialReadCloser) (b : Nat) : Nat → ReadResult
  | 0 => d.Read b
  | k + 1 => (readN d b k).st.Read b

/-- C7: a deferred partial reader touches no underlying resource at
construction time (its event trace is empty, hence also for any number of
constructed readers), nor on a `Close` before any read; the underlying
file is opened — and then seeked to `start` — only during the first `Read`
call, and a reader whose inner reader is already initialised never emits
an open event again. -/
theorem claim_C7_deferred_open_on_first_read
    (path : String) (start size : Int) (fileLen : Nat) (openOk : Bool) :
    (newDeferredPartialReadCloser path start size fileLen openOk).2 = [] ∧
    ((newDeferredPartialReadCloser path start size fileLen openOk).1.Close).2.2 = [] ∧
    (∀ b, (((newDeferredPartialReadCloser path start size fileLen openOk).1.Read b).evs).head?
        = some (.openEv path)) ∧
    (0 ≤ start → openOk = true →
      ∀ b, (((newDeferredPartialReadCloser path start size fileLen openOk).1.Read b).evs).take 2
        = [.openEv path, .seekEv start]) ∧
    (∀ (d : DeferredPartialReadCloser) (b : Nat) (q : String), d.hasReader = true →
      FsEvent.openEv q ∉ (d.Read b).evs) := by
  have hd : (newDeferredPartialReadCloser path start size fileLen openOk).1
      = { path := path, start := start, size := size, hasReader := false,
          hasFile := false, filePos := 0, fileClosed := false, limN := 0,
          fileLen := fileLen, openOk := openOk } := rfl
  refine ⟨rfl, ?_, ?_, ?_, ?_⟩
  · rw [hd]
    rfl
  · intro b
    rw [hd]
    unfold DeferredPartialReadCloser.Read
    rw [if_pos rfl]
    by_cases ho : openOk = false
    · simp [ho]
    · rw [if_neg (by simpa using ho)]
      by_cases hs : start < 0
      · simp [hs]
      · rw [if_neg (by simpa using hs)]
        rcases readCore_evs
          { path := path, start := start, size := size, hasReader := true,
            hasFile := true, filePos := start.toNat, fileClosed := false,
            limN := size, fileLen := fileLen, openOk := openOk }
          [.openEv path, .seekEv start] b with h | h <;> simp [h]
  · intro hs ho b
    rw [hd]
    unfold DeferredPartialReadCloser.Read
    rw [if_pos rfl, if_neg (by simp [ho]), if_neg (by simp; omega)]
    rcases readCore_evs
      { path := path, start := start, size := size, hasReader := true,
        hasFile := true, filePos := start.toNat, fileClosed := false,
        limN := size, fileLen := fileLen, openOk := openOk }
      [.openEv path, .seekEv start] b with h | h <;> simp [h]
  · intro d b q hr
    rw [read_eq_opened d b hr]
    rcases readCore_evs d [] b with h | h <;> simp [h]

/-- Witness for C7 at a concrete input. -/
theorem claim_C7_deferred_open_on_first_read_witness :
    (newDeferredPartialReadCloser "f" 1 2 4 true).2 = [] ∧
    (((newDeferredPartialReadCloser "f" 1 2 4 true).1.Read 3).evs).take 2
      = [.openEv "f", .seekEv 1] :=
  ⟨(claim_C7_deferred_open_on_first_read "f" 1 2 4 true).1,
    (claim_C7_deferred_open_on_first_read "f" 1 2 4 true).2.2.2.1
      (by decide) rfl 3⟩

/-- C8: for a deferred partial reader over a file of length `fileLen` with
range `[start, start+size)`, the total of bytes handed out by any sequence
of reads never exceeds `size`, and a run of reads that exhausts the range
returns exactly `min size (fileLen - start)` bytes in total (Nat
subtraction supplies the `max 0` of the claim). -/
theorem claim_C8_deferred_total_bytes (path : String) (start size : Int) (fileLen : Nat)
    (hs : 0 ≤ start) (hz : 0 ≤ size) :
    (∀ bs : List Nat,
      readTotal (newDeferredPartialReadCloser path start size fileLen true).1 bs ≤ size.toNat) ∧
    (∀ b fuel, size.toNat ≤ b →
      drainTotal (newDeferredPartialReadCloser path start size fileLen true).1 b (fuel + 1)
        = min size.toNat (fileLen - start.toNat)) := by
  constructor
  · intro bs
    have h := readTotal_le bs (newDeferredPartialReadCloser path start size fileLen true).1
    have hrem : rem (newDeferredPartialReadCloser path start size fileLen true).1 = size := by
      simp [rem, newDeferredPartialReadCloser]
    rw [hrem] at h
    omega
  · intro b fuel hb
    have h := read_fresh (newDeferredPartialReadCloser path start size fileLen true).1 b
      rfl rfl hs hz hb
    simp only [drainTotal]
    rw [h.1, drain_exhausted b fuel _ h.2]
    simp [newDeferredPartialReadCloser]
/-- Witness for C8 at a concrete input. -/
theorem claim_C8_deferred_total_bytes_witness :
    readTotal (newDeferredPartialReadCloser "f" 1 2 4 true).1 [1, 5] ≤ (2 : Int).toNat ∧
    drainTotal (newDeferredPartialReadCloser "f" 1 2 4 true).1 2 (2 + 1)
      = min (2 : Int).toNat (4 - (1 : Int).toNat) :=
  ⟨(claim_C8_deferred_total_bytes "f" 1 2 4 (by decide) (by decide)).1 [1, 5],
    (claim_C8_deferred_total_bytes "f" 1 2 4 (by decide) (by decide)).2 2 2 (by decide)⟩

/-- C9: `Close` returns `nil` from every state — after no reads, after any
reads, after read errors, and after the handle was already released — and a
second `Close` is a no-op returning `nil` again. -/
theorem claim_C9_close_idempotent (d : DeferredPartialReadCloser) :
    d.Close.1 = none ∧ d.Close.2.1.Close.1 = none ∧ d.Close.2.1.Close.2.1 = d.Close.2.1 := by
  by_cases h1 : d.hasFile = false
  · simp [DeferredPartialReadCloser.Close, h1]
  · by_cases h2 : d.fileClosed
    · simp [DeferredPartialReadCloser.Close, h1, h2]
    · simp [DeferredPartialReadCloser.Close, h1, h2]

/-- Compact constructor for reader states, used to write out intermediate
states of multi-read runs. -/
def mkSt (path : String) (start size : Int) (fileLen : Nat)
    (openOk hasR hasF fc : Bool) (pos : Nat) (lim : Int) : DeferredPartialReadCloser :=
  { path := path, start := start, size := size, hasReader := hasR,
    hasFile := hasF, filePos := pos, fileClosed := fc, limN := lim,
    fileLen := fileLen, openOk := openOk }

/-- C10: on the `Read` call where the limit reader first returns `io.EOF`,
the error is replaced by the (successful) close of the underlying file, so
that call returns no error; only the following `Read` surfaces an error —
`io.EOF` when `size` was fully consumed (the limit reader is exhausted and
the repeated close yields `os.ErrClosed`, which is ignored), but
`os.ErrClosed` ("file already closed") when `size` exceeds the bytes
available past `start`. -/
theorem claim_C10_eof_replaced_by_close (path : String) (start size : Int) (fileLen b : Nat)
    (hs : 0 ≤ start) (hlt : start.toNat < fileLen) (hpos : 0 < size)
    (hb : size.toNat ≤ b) :
    (readN (newDeferredPartialReadCloser path start size fileLen true).1 b 0).err = none ∧
    (readN (newDeferredPartialReadCloser path start size fileLen true).1 b 0).n
      = min size.toNat (fileLen - start.toNat) ∧
    (readN (newDeferredPartialReadCloser path start size fileLen true).1 b 1).n = 0 ∧
    (readN (newDeferredPartialReadCloser path start size fileLen true).1 b 1).err = none ∧
    (readN (newDeferredPartialReadCloser path start size fileLen true).1 b 2).n = 0 ∧
    (readN (newDeferredPartialReadCloser path start size fileLen true).1 b 2).err
      = some (if size.toNat ≤ fileLen - start.toNat then RErr.eof else RErr.errClosed) := by
  have hd : (newDeferredPartialReadCloser path start size fileLen true).1
      = mkSt path start size fileLen true false false false 0 0 := rfl
  set n1 := min (min b size.toNat) (fileLen - start.toNat) with hn1
  have e1 : (newDeferredPartialReadCloser path start size fileLen true).1.Read b
      = readCore (mkSt path start size fileLen true true true false start.toNat size)
          [.openEv path, .seekEv start] b := by
    rw [hd]
    exact read_eq_unopened _ b rfl rfl (by simp [mkSt]; omega)
  have e2 : limitedRead (mkSt path start size fileLen true true true false start.toNat size) b
      = (n1, none,
          mkSt path start size fileLen true true true false (start.toNat + n1) (size - n1)) := by
    rw [limitedRead_eq_data _ b (by simp [mkSt]; omega) rfl (by simp [mkSt]; omega)]
    rfl
  have e3 : (newDeferredPartialReadCloser path start size fileLen true).1.Read b
      = ⟨n1, none,
          mkSt path start size fileLen true true true false (start.toNat + n1) (size - n1),
          [.openEv path, .seekEv start]⟩ := by
    rw [e1, readCore_eq_none _ _ b (by rw [e2]), e2]
  by_cases hcase : size.toNat ≤ fileLen - start.toNat
  · have e4 : limitedRead
        (mkSt path start size fileLen true true true false (start.toNat + n1) (size - n1)) b
        = (0, some .eof,
            mkSt path start size fileLen true true true false (start.toNat + n1) (size - n1)) :=
      limitedRead_eq_limDone _ b (by simp [mkSt]; omega)
    have e5 : (mkSt path start size fileLen true true true false
        (start.toNat + n1) (size - n1)).Read b
        = ⟨0, none,
            mkSt path start size fileLen true true true true (start.toNat + n1) (size - n1),
            [.closeEv]⟩ := by
      rw [read_eq_opened _ b rfl, readCore_eq_eofOpen _ [] b (by rw [e4]) (by rw [e4]; rfl), e4]
      rfl
    have e6 : limitedRead
        (mkSt path start size fileLen true true true true (start.toNat + n1) (size - n1)) b
        = (0, some .eof,
            mkSt path start size fileLen true true true true (start.toNat + n1) (size - n1)) :=
      limitedRead_eq_limDone _ b (by simp [mkSt]; omega)
    have e7 : (mkSt path start size fileLen true true true true
        (start.toNat + n1) (size - n1)).Read b
        = ⟨0, some .eof,
            mkSt path start size fileLen true true true true (start.toNat + n1) (size - n1),
            []⟩ := by
      rw [read_eq_opened _ b rfl, readCore_eq_eofClosed _ [] b (by rw [e6]) (by rw [e6]; rfl), e6]
    simp only [readN]
    rw [e3]
    dsimp only
    rw [e5]
    dsimp only
    rw [e7]
    refine ⟨rfl, by omega, rfl, rfl, rfl, ?_⟩
    rw [if_pos hcase]
  · have e4 : limitedRead
        (mkSt path start size fileLen true true true false (start.toNat + n1) (size - n1)) b
        = (0, some .eof,
            mkSt path start size fileLen true true true false (start.toNat + n1) (size - n1)) :=
      limitedRead_eq_fileEnd _ b (by simp [mkSt]; omega) rfl (by simp [mkSt]; omega)
    have e5 : (mkSt path start size fileLen true true true false
        (start.toNat + n1) (size - n1)).Read b
        = ⟨0, none,
            mkSt path start size fileLen true true true true (start.toNat + n1) (size - n1),
            [.closeEv]⟩ := by
      rw [read_eq_opened _ b rfl, readCore_eq_eofOpen _ [] b (by rw [e4]) (by rw [e4]; rfl), e4]
      rfl
    have e6 : limitedRead
        (mkSt path start size fileLen true true true true (start.toNat + n1) (size - n1)) b
        = (0, some .errClosed,
            mkSt path start size fileLen true true true true (start.toNat + n1) (size - n1)) :=
      limitedRead_eq_closed _ b (by simp [mkSt]; omega) rfl
    have e7 : (mkSt path start size fileLen true true true true
        (start.toNat + n1) (size - n1)).Read b
        = ⟨0, some .errClosed,
            mkSt path start size fileLen true true true true (start.toNat + n1) (size - n1),
            []⟩ := by
      rw [read_eq_opened _ b rfl, readCore_eq_errClosed _ [] b (by rw [e6]), e6]
    simp only [readN]
    rw [e3]
    dsimp only
    rw [e5]
    dsimp only
    rw [e7]
    refine ⟨rfl, by omega, rfl, rfl, rfl, ?_⟩
    rw [if_neg hcase]

/-- Witness for C10 at a concrete input. -/
theorem claim_C10_eof_replaced_by_close_witness :
    (readN (newDeferredPartialReadCloser "f" 1 2 4 true).1 2 0).err = none ∧
    (readN (newDeferredPartialReadCloser "f" 1 2 4 true).1 2 0).n
      = min (2 : Int).toNat (4 - (1 : Int).toNat) ∧
    (readN (newDeferredPartialReadCloser "f" 1 2 4 true).1 2 1).n = 0 ∧
    (readN (newDeferredPartialReadCloser "f" 1 2 4 true).1 2 1).err = none ∧
    (readN (newDeferredPartialReadCloser "f" 1 2 4 true).1 2 2).n = 0 ∧
    (readN (newDeferredPartialReadCloser "f" 1 2 4 true).1 2 2).err
      = some (if (2 : Int).toNat ≤ 4 - (1 : Int).toNat then RErr.eof else RErr.errClosed) :=
  claim_C10_eof_replaced_by_close "f" 1 2 4 2 (by decide) (by decide) (by decide) (by decide)

/-! ## Image content fetch helpers (from the image package sources) -/

/-- A path in the image API (`file.Path`). -/
abbrev FPath := String

/-- `file.Reference`: identity of one file instance. -/
structure Reference where
  id : Nat
  realPath : String
deriving DecidableEq

/-- Structural errors `FileTree.File` can return. -/
inductive FtErr where
  | malformedPath
  | linkCycleOrDepth
deriving DecidableEq

/-- Errors surfaced by the fetch helpers.  `nilDeref` marks the branch in
which `File` reports `exists` with a nil reference; the Go code would
dereference a nil pointer there. -/
inductive FetchErr where
  | ftErr (e : FtErr)
  | notFound (p : FPath)
  | unregistered (r : Reference)
  | nilDeref
deriving DecidableEq

/-- Opaque content-reader handle handed out by the catalog. -/
abbrev Reader := Nat

/-- Abstract behaviour of `FileTree.File(path, FollowBasenameLinks)`:
either a structural error or `(exists, fileReference)`. -/
def FileLookup := FPath → Except FtErr (Bool × Option Reference)

/-- Abstract `FileCatalog` contents: the registered reader for a
reference, if any. -/
def Catalog := Reference → Option Reader

/-- Modelled from the spec: `FileCatalog.FileContents` (its Go source is
not among the given sources) returns the lazy reader registered for the
reference and fails for a reference that was never added. -/
def fileContents (cat : Catalog) (r : Reference) : Except FetchErr Reader :=
  match cat r with
  | some rd => .ok rd
  | none => .error (.unregistered r)

/-- `fetchFileContentsByPath` from the source: resolve the path via
`File(path, FollowBasenameLinks)`, propagate its error unchanged, report a
not-found error when `!exists && fileReference == nil`, and otherwise hand
the dereferenced reference to the catalog. -/
def fetchFileContentsByPath (ftFile : FileLookup) (cat : Catalog) (p : FPath) :
    Except FetchErr Reader :=
  match ftFile p with
  | .error e => .error (.ftErr e)
  | .ok (ex, ref?) =>
      if ex = false ∧ ref? = none then .error (.notFound p)
      else
        match ref? with
        | some r => fileContents cat r
        | none => .error .nilDeref

/-- The resolution loop of `fetchMultipleFileContentsByPath`: resolve
every path left to right, aborting at the first failure. -/
def resolveAllPaths (ftFile : FileLookup) : List FPath → Except FetchErr (List Reference)
  | [] => .ok []
  | p :: rest =>
      match ftFile p with
      | .error e => .error (.ftErr e)
      | .ok (ex, ref?) =>
          if ex = false ∧ ref? = none then .error (.notFound p)
          else
            match ref? with
            | some r =>
                match resolveAllPaths ftFile rest with
                | .error e => .error e
                | .ok rs => .ok (r :: rs)
            | none => .error .nilDeref

/-- Modelled from the spec: `FileCatalog.MultipleFileContents` (its Go
source is not among the given sources) fails atomically, surfacing the
first reference that was never added, and otherwise returns the
`map[file.Reference]io.ReadCloser`, modelled as an association list with
first-match lookup. -/
def multipleFileContents (cat : Catalog) :
    List Reference → Except FetchErr (List (Reference × Reader))
  | [] => .ok []
  | r :: rest =>
      match cat r with
      | none => .error (.unregistered r)
      | some rd =>
          match multipleFileContents cat rest with
          | .error e => .error e
          | .ok m => .ok ((r, rd) :: m)

/-- Lookup in the returned reader map. -/
def mapFind (m : List (Reference × Reader)) (r : Reference) : Option Reader :=
  (m.find? (fun e => e.1 == r)).map (fun e => e.2)

/-- `fetchMultipleFileContentsByPath` from the source: resolve every path
(the first failure aborts with no map at all), then ask the catalog for
the whole batch. -/
def fetchMultipleFileContentsByPath (ftFile : FileLookup) (cat : Catalog)
    (paths : List FPath) : Except FetchErr (List (Reference × Reader)) :=
  match resolveAllPaths ftFile paths with
  | .error e => .error e
  | .ok refs => multipleFileContents cat refs

theorem resolveAllPaths_append_error (ftFile : FileLookup) (e : FetchErr)
    (pre : List FPath) :
    ∀ l : List FPath, (∀ q ∈ pre, ∃ b r, ftFile q = .ok (b, some r)) →
      resolveAllPaths ftFile l = .error e →
      resolveAllPaths ftFile (pre ++ l) = .error e := by
  induction pre with
  | nil => intro l _ h; simpa using h
  | cons q pre ih =>
      intro l hres h
      obtain ⟨b, r, hq⟩ := hres q (by simp)
      have hrec := ih l (fun x hx => hres x (by simp [hx])) h
      simp [resolveAllPaths, hq, hrec]

theorem resolveAllPaths_ok (ftFile : FileLookup) :
    ∀ paths : List FPath, (∀ q ∈ paths, ∃ b r, ftFile q = .ok (b, some r)) →
      ∃ refs, resolveAllPaths ftFile paths = .ok refs ∧
        (∀ q ∈ paths, ∀ b r, ftFile q = .ok (b, some r) → r ∈ refs) ∧
        (∀ r ∈ refs, ∃ q ∈ paths, ∃ b, ftFile q = .ok (b, some r)) := by
  intro paths
  induction paths with
  | nil => intro _; exact ⟨[], rfl, by simp, by simp⟩
  | cons q rest ih =>
      intro h
      obtain ⟨b, r, hq⟩ := h q (by simp)
      obtain ⟨refs, hres, hmem, hmem2⟩ := ih (fun x hx => h x (by simp [hx]))
      refine ⟨r :: refs, by simp [resolveAllPaths, hq, hres], ?_, ?_⟩
      · intro x hx b' r' hx'
        rcases List.mem_cons.mp hx with hxq | hxr
        · subst hxq
          rw [hq] at hx'
          simp at hx'
          simp [hx'.2]
        · simp [hmem x hxr b' r' hx']
      · intro r' hr'
        rcases List.mem_cons.mp hr' with hrq | hrr
        · subst hrq
          exact ⟨q, by simp, b, hq⟩
        · obtain ⟨x, hx, b', hb'⟩ := hmem2 r' hrr
          exact ⟨x, by simp [hx], b', hb'⟩

theorem multipleFileContents_ok (cat : Catalog) :
    ∀ refs : List Reference, (∀ r ∈ refs, (cat r).isSome) →
      ∃ m, multipleFileContents cat refs = .ok m ∧ ∀ r ∈ refs, mapFind m r = cat r := by
  intro refs
  induction refs with
  | nil => intro _; exact ⟨[], rfl, by simp⟩
  | cons r rest ih =>
      intro h
      obtain ⟨rd, hrd⟩ := Option.isSome_iff_exists.mp (h r (by simp))
      obtain ⟨m, hm, hfind⟩ := ih (fun x hx => h x (by simp [hx]))
      refine ⟨(r, rd) :: m, by simp [multipleFileContents, hrd, hm], ?_⟩
      intro r' hr'
      by_cases hrr : r == r'
      · have : r = r' := by simpa using hrr
        subst this
        simp [mapFind, hrd]
      · have hne : ¬ (r == r') = true := by simpa using hrr
        rcases List.mem_cons.mp hr' with h1 | h1
        · exact absurd (by simp [h1]) hrr
        · simp only [mapFind, List.find?]
          rw [show ((r, rd).1 == r') = false by simpa using hne]
          exact hfind r' h1

/-- C5: for a path with no resolvable node (`File` reports
`exists=false` with a nil reference and no error) `fetchFileContentsByPath`
returns a path-not-found error and never consults the catalog (the result
is identical for every catalog); a structural error returned by
`FileTree.File` — MalformedPath or SymlinkCycleOrDepthExceeded — is
returned to the caller unchanged, again without consulting the catalog. -/
theorem claim_C5_fetch_contents_errors
    (ftFile : FileLookup) (cat cat' : Catalog) (p : FPath) :
    (ftFile p = .ok (false, none) →
      fetchFileContentsByPath ftFile cat p = .error (.notFound p) ∧
      fetchFileContentsByPath ftFile cat' p = fetchFileContentsByPath ftFile cat p) ∧
    (∀ e : FtErr, ftFile p = .error e →
      fetchFileContentsByPath ftFile cat p = .error (.ftErr e) ∧
      fetchFileContentsByPath ftFile cat' p = fetchFileContentsByPath ftFile cat p) := by
  constructor
  · intro h
    constructor <;> simp [fetchFileContentsByPath, h]
  · intro e h
    constructor <;> simp [fetchFileContentsByPath, h]

/-- Witness for C5 at a concrete input. -/
theorem claim_C5_fetch_contents_errors_witness :
    (fun _ : FPath => (.ok (false, none) : Except FtErr (Bool × Option Reference))) "/x"
        = .ok (false, none) ∧
    fetchFileContentsByPath (fun _ => .ok (false, none)) (fun _ => none) "/x"
        = .error (.notFound "/x") :=
  ⟨rfl,
    ((claim_C5_fetch_contents_errors (fun _ => .ok (false, none)) (fun _ => none)
        (fun _ => some 0) "/x").1 rfl).1⟩

/-- C6: `fetchMultipleFileContentsByPath` fails atomically.  If some path
does not resolve, the returned value is the error naming the first
offending path (no map is produced); a structural lookup error aborts the
batch the same way; an unregistered reference makes the (spec-modelled)
batch catalog call fail with the first offending reference; and when every
path resolves to a registered reference, a map is returned holding a
reader for every path's reference. -/
theorem claim_C6_multi_fetch_atomic (ftFile : FileLookup) (cat : Catalog) :
    (∀ (pre : List FPath) (p : FPath) (post : List FPath),
      (∀ q ∈ pre, ∃ b r, ftFile q = .ok (b, some r)) →
      ftFile p = .ok (false, none) →
      fetchMultipleFileContentsByPath ftFile cat (pre ++ p :: post)
        = .error (.notFound p)) ∧
    (∀ (pre : List FPath) (p : FPath) (post : List FPath) (e : FtErr),
      (∀ q ∈ pre, ∃ b r, ftFile q = .ok (b, some r)) →
      ftFile p = .error e →
      fetchMultipleFileContentsByPath ftFile cat (pre ++ p :: post)
        = .error (.ftErr e)) ∧
    (∀ (rpre : List Reference) (r0 : Reference) (rpost : List Reference),
      cat r0 = none →
      (∀ r ∈ rpre, (cat r).isSome) →
      multipleFileContents cat (rpre ++ r0 :: rpost) = .error (.unregistered r0)) ∧
    (∀ paths : List FPath,
      (∀ q ∈ paths, ∃ b r, ftFile q = .ok (b, some r) ∧ (cat r).isSome) →
      ∃ m, fetchMultipleFileContentsByPath ftFile cat paths = .ok m ∧
        ∀ q ∈ paths, ∀ b r, ftFile q = .ok (b, some r) → (mapFind m r).isSome) := by
  refine ⟨?_, ?_, ?_, ?_⟩
  · intro pre p post hpre hp
    have hl : resolveAllPaths ftFile (p :: post) = .error (.notFound p) := by
      simp [resolveAllPaths, hp]
    have := resolveAllPaths_append_error ftFile (.notFound p) pre (p :: post) hpre hl
    simp [fetchMultipleFileContentsByPath, this]
  · intro pre p post e hpre hp
    have hl : resolveAllPaths ftFile (p :: post) = .error (.ftErr e) := by
      simp [resolveAllPaths, hp]
    have := resolveAllPaths_append_error ftFile (.ftErr e) pre (p :: post) hpre hl
    simp [fetchMultipleFileContentsByPath, this]
  · intro rpre r0 rpost h0 hpre
    induction rpre with
    | nil => simp [multipleFileContents, h0]
    | cons r rest ih =>
        obtain ⟨rd, hrd⟩ := Option.isSome_iff_exists.mp (hpre r (by simp))
        have hrec := ih (fun x hx => hpre x (by simp [hx]))
        simp [multipleFileContents, hrd, hrec]
  · intro paths h
    obtain ⟨refs, hres, hmem, hmem2⟩ := resolveAllPaths_ok ftFile paths
      (fun q hq => by obtain ⟨b, r, h1, _⟩ := h q hq; exact ⟨b, r, h1⟩)
    have hreg : ∀ r ∈ refs, (cat r).isSome := by
      intro r hr
      obtain ⟨q, hq, b, hb⟩ := hmem2 r hr
      obtain ⟨b', r', h1, h2⟩ := h q hq
      rw [hb] at h1
      simp at h1
      rw [← h1.2] at h2
      exact h2
    obtain ⟨m, hm, hfind⟩ := multipleFileContents_ok cat refs hreg
    refine ⟨m, by simp [fetchMultipleFileContentsByPath, hres, hm], ?_⟩
    intro q hq b r hqr
    rw [hfind r (hmem q hq b r hqr)]
    obtain ⟨b', r', h1, h2⟩ := h q hq
    rw [hqr] at h1
    simp at h1
    rw [← h1.2] at h2
    exact h2

/-- Witness for C6 at a concrete input. -/
theorem claim_C6_multi_fetch_atomic_witness :
    fetchMultipleFileContentsByPath
        (fun q => if q = "/a" then .ok (true, some ⟨0, "/a"⟩) else .ok (false, none))
        (fun _ => none) ["/a", "/b"]
      = .error (.notFound "/b") :=
  (claim_C6_multi_fetch_atomic
      (fun q => if q = "/a" then .ok (true, some ⟨0, "/a"⟩) else .ok (false, none))
      (fun _ => none)).1 ["/a"] "/b" []
    (by
      intro q hq
      simp at hq
      subst hq
      exact ⟨true, ⟨0, "/a"⟩, rfl⟩)
    rfl

/-! ## Squasher (modelled from the spec, §4.2 / §6; its Go source is not
among the given sources, only its integration test). -/

/-- A normalized absolute path, as its list of `/`-separated components. -/
abbrev SPath := List String

/-- Node kinds of the data model (§3); `whiteout` / `owhiteout` are the
Whiteout / OpaqueWhiteout marker kinds. -/
inductive NodeKind where
  | directory
  | regularFile
  | symlink
  | whiteout
  | owhiteout
deriving DecidableEq

/-- True for the non-marker kinds. -/
def nonmarker (k : NodeKind) : Bool :=
  !(k == .whiteout || k == .owhiteout)

/-- Modelled from the spec (§6): the decoded change-set records of one
layer, in archive order — each a path with its node kind.  A `whiteout`
entry at `D/name` decodes `.wh.<name>` inside `D` and means deletion of
`D/name`; an `owhiteout` entry at `D` decodes `.wh..wh..opq` inside `D`. -/
abbrev LayerEntries := List (SPath × NodeKind)

/-- The squash accumulator: the present paths, each with its node kind and
owning layer index (the FileReference identity of §3).  Sibling-name
uniqueness (§3) corresponds to at most one entry per path. -/
abbrev Acc := List (SPath × NodeKind × Nat)

/-- Ancestor-or-equal on paths. -/
def isLe (p q : SPath) : Bool := p.isPrefixOf q

/-- Strict ancestor on paths. -/
def isLt (p q : SPath) : Bool := p.isPrefixOf q && !(p == q)

/-- The node stored at `p`, if any. -/
def findNode (acc : Acc) (p : SPath) : Option (NodeKind × Nat) :=
  (acc.find? (fun e => e.1 == p)).map (fun e => e.2)

/-- Whether a node is stored at `p`. -/
def pathMem (acc : Acc) (p : SPath) : Bool :=
  (findNode acc p).isSome

/-- Create or replace the terminal node at `p` (§4.1). -/
def setPath (acc : Acc) (p : SPath) (k : NodeKind) (i : Nat) : Acc :=
  if pathMem acc p then acc.map (fun e => if e.1 == p then (p, k, i) else e)
  else (p, k, i) :: acc

/-- The nonempty proper ancestors of a path. -/
def ancPaths (p : SPath) : List SPath :=
  (List.range p.length).filterMap (fun n => if n = 0 then none else some (p.take n))

/-- Create the intermediate Directory node at `q` if missing (§4.1),
owned by layer `i`. -/
def addAnc (i : Nat) (acc : Acc) (q : SPath) : Acc :=
  if pathMem acc q then acc else (q, .directory, i) :: acc

/-- Modelled from the spec (§4.1, §4.2 step 2): insert or overwrite the
node at `p`, creating missing intermediate Directory nodes. -/
def insertPath (acc : Acc) (p : SPath) (k : NodeKind) (i : Nat) : Acc :=
  setPath ((ancPaths p).foldl (addAnc i) acc) p k i

/-- Modelled from the spec (§4.2 step 3): delete the node at `p` — with
its subtree — from the accumulator, a no-op when absent. -/
def erasePath (acc : Acc) (p : SPath) : Acc :=
  acc.filter (fun e => !(isLe p e.1))

/-- Modelled from the spec (§4.2 step 1): discard every child currently
under `d` ("opaque reset"). -/
def removeChildren (acc : Acc) (d : SPath) : Acc :=
  acc.filter (fun e => !(isLt d e.1))

/-- §4.2 step 1: all opaque resets of the layer. -/
def phase1 (L : LayerEntries) (acc : Acc) : Acc :=
  L.foldl (fun a e => if e.2 == .owhiteout then removeChildren a e.1 else a) acc

/-- §4.2 step 2: insert every non-marker entry, owned by layer `i`. -/
def phase2 (i : Nat) (L : LayerEntries) (acc : Acc) : Acc :=
  L.foldl (fun a e => if nonmarker e.2 then insertPath a e.1 e.2 i else a) acc

/-- §4.2 step 3: apply every whiteout entry of the layer. -/
def phase3 (L : LayerEntries) (acc : Acc) : Acc :=
  L.foldl (fun a e => if e.2 == .whiteout then erasePath a e.1 else a) acc

/-- Modelled from the spec (§4.2): merge layer `i` into the accumulator —
opaque resets first, then the adds, then the whiteouts ("whiteout is
applied after adds within the same layer"). -/
def applyLayer (i : Nat) (acc : Acc) (L : LayerEntries) : Acc :=
  phase3 L (phase2 i L (phase1 L acc))

/-- Apply a run of consecutive layers, the first carrying index `i`. -/
def applyLayers (acc : Acc) (i : Nat) : List LayerEntries → Acc
  | [] => acc
  | L :: rest => applyLayers (applyLayer i acc L) (i + 1) rest

/-- Modelled from the spec (§4.2): the squash tree for index `i` is the
accumulator after applying layers `0..i` to the empty accumulator; the
final squash tree equals the last index's result. -/
def squashAt (layers : List LayerEntries) (i : Nat) : Acc :=
  applyLayers [] 0 (layers.take (i + 1))

/-- The layer at index `k` (empty when out of range). -/
def layerAt (layers : List LayerEntries) (k : Nat) : LayerEntries :=
  layers.getD k []

/-- Some whiteout entry of `L` sits at `p` or an ancestor of `p`, so its
deletion (of a whole subtree) erases `p`. -/
def woCovers (L : LayerEntries) (p : SPath) : Bool :=
  L.any (fun e => e.2 == .whiteout && isLe e.1 p)

/-- Some opaque whiteout entry of `L` sits at a strict ancestor of `p`,
so its opaque reset discards `p`. -/
def opqCovers (L : LayerEntries) (p : SPath) : Bool :=
  L.any (fun e => e.2 == .owhiteout && isLt e.1 p)

/-- `L` has a non-marker entry at `p`. -/
def addsAt (L : LayerEntries) (p : SPath) : Bool :=
  L.any (fun e => nonmarker e.2 && e.1 == p)

/-- `L` has a non-marker entry strictly below `p`, whose insertion
re-creates `p` as an intermediate directory. -/
def underNew (L : LayerEntries) (p : SPath) : Bool :=
  L.any (fun e => nonmarker e.2 && isLt p e.1)

/-- The paths of the non-marker entries of a layer. -/
def nmPaths (L : LayerEntries) : List SPath :=
  (L.filter (fun e => nonmarker e.2)).map (fun e => e.1)

/-- The kind of the first non-marker entry of `L` at `p`, if any. -/
def kindAt (L : LayerEntries) (p : SPath) : Option NodeKind :=
  (L.find? (fun e => nonmarker e.2 && e.1 == p)).map (fun e => e.2)

theorem findNode_cons (e : SPath × NodeKind × Nat) (acc : Acc) (p : SPath) :
    findNode (e :: acc) p = if e.1 = p then some e.2 else findNode acc p := by
  by_cases h : e.1 = p <;> simp [findNode, List.find?_cons, h]

theorem pathMem_iff_find (acc : Acc) (p : SPath) :
    pathMem acc p = true ↔ findNode acc p ≠ none := by
  simp [pathMem, Option.isSome_iff_ne_none]

theorem findNode_filterPath (g : SPath → Bool) (p : SPath) :
    ∀ acc : Acc, findNode (acc.filter (fun e => g e.1)) p
      = if g p = true then findNode acc p else none := by
  intro acc
  induction acc with
  | nil => simp [findNode]
  | cons e acc ih =>
      rw [List.filter_cons]
      by_cases he : e.1 = p
      · subst he
        by_cases hg : g e.1 = true <;> simp [hg, findNode_cons, ih]
      · by_cases hg : g e.1 = true <;> simp [hg, findNode_cons, he, ih]

theorem findNode_erasePath (acc : Acc) (p q : SPath) :
    findNode (erasePath acc p) q = if isLe p q = true then none else findNode acc q := by
  have h := findNode_filterPath (fun x => !(isLe p x)) q acc
  by_cases hle : isLe p q = true
  · simpa [erasePath, hle] using h
  · simpa [erasePath, hle] using h

theorem findNode_removeChildren (acc : Acc) (d q : SPath) :
    findNode (removeChildren acc d) q = if isLt d q = true then none else findNode acc q := by
  have h := findNode_filterPath (fun x => !(isLt d x)) q acc
  by_cases hle : isLt d q = true
  · simpa [removeChildren, hle] using h
  · simpa [removeChildren, hle] using h

theorem findNode_mapReplace_ne (p : SPath) (k : NodeKind) (i : Nat) (q : SPath)
    (hq : q ≠ p) : ∀ acc : Acc,
    findNode (acc.map (fun e => if e.1 == p then (p, k, i) else e)) q = findNode acc q := by
  intro acc
  induction acc with
  | nil => simp
  | cons e acc ih =>
      rw [List.map_cons]
      by_cases hep : e.1 = p
      · rw [show (if e.1 == p then (p, k, i) else e) = (p, k, i) by simp [hep]]
        rw [findNode_cons, findNode_cons, if_neg (fun h => hq h.symm),
          if_neg (fun h => hq (hep ▸ h).symm), ih]
      · rw [show (if e.1 == p then (p, k, i) else e) = e by simp [hep]]
        rw [findNode_cons, findNode_cons, ih]

theorem findNode_mapReplace_eq (p : SPath) (k : NodeKind) (i : Nat) :
    ∀ acc : Acc, pathMem acc p = true →
    findNode (acc.map (fun e => if e.1 == p then (p, k, i) else e)) p = some (k, i) := by
  intro acc
  induction acc with
  | nil => intro h; simp [pathMem, findNode] at h
  | cons e acc ih =>
      intro h
      rw [List.map_cons]
      by_cases hep : e.1 = p
      · rw [show (if e.1 == p then (p, k, i) else e) = (p, k, i) by simp [hep]]
        rw [findNode_cons, if_pos rfl]
      · rw [show (if e.1 == p then (p, k, i) else e) = e by simp [hep]]
        rw [findNode_cons, if_neg hep]
        refine ih ?_
        rw [pathMem_iff_find] at h ⊢
        rw [findNode_cons, if_neg hep] at h
        exact h

theorem findNode_setPath (acc : Acc) (p : SPath) (k : NodeKind) (i : Nat) (q : SPath) :
    findNode (setPath acc p k i) q = if q = p then some (k, i) else findNode acc q := by
  unfold setPath
  by_cases hm : pathMem acc p = true
  · rw [if_pos hm]
    by_cases hq : q = p
    · subst hq
      rw [if_pos rfl, findNode_mapReplace_eq q k i acc hm]
    · rw [if_neg hq, findNode_mapReplace_ne p k i q hq acc]
  · rw [if_neg hm, findNode_cons]
    by_cases hq : q = p
    · subst hq
      simp
    · rw [if_neg (fun h => hq h.symm), if_neg hq]

theorem findNode_addAnc (i : Nat) (acc : Acc) (q p : SPath) :
    findNode (addAnc i acc q) p
      = if p = q ∧ findNode acc q = none then some (.directory, i) else findNode acc p := by
  unfold addAnc
  by_cases hm : pathMem acc q = true
  · rw [if_pos hm, if_neg ?_]
    rw [pathMem_iff_find] at hm
    exact fun h => hm h.2
  · rw [if_neg hm, findNode_cons]
    have hm' : findNode acc q = none := by
      by_cases h : findNode acc q = none
      · exact h
      · exact absurd ((pathMem_iff_find acc q).mpr h) hm
    by_cases hq : p = q
    · subst hq
      rw [if_pos rfl, if_pos ⟨rfl, hm'⟩]
    · rw [if_neg (fun h => hq h.symm), if_neg (by simp [hq])]

theorem findNode_ancFold (i : Nat) (p : SPath) :
    ∀ (l : List SPath) (acc : Acc),
      findNode (l.foldl (addAnc i) acc) p
        = if p ∈ l ∧ findNode acc p = none then some (.directory, i)
          else findNode acc p := by
  intro l
  induction l with
  | nil => intro acc; simp
  | cons r l ih =>
      intro acc
      rw [List.foldl_cons, ih, findNode_addAnc]
      by_cases hpr : p = r
      · subst hpr
        by_cases hA : findNode acc p = none
        · simp [hA]
        · simp [hA]
      · by_cases hA : findNode acc p = none
        · by_cases hl : p ∈ l <;> simp [hpr, hA, hl]
        · simp [hpr, hA]

theorem mem_ancPaths (p q : SPath) : p ∈ ancPaths q ↔ (p ≠ [] ∧ isLt p q = true) := by
  simp only [ancPaths, List.mem_filterMap, List.mem_range]
  constructor
  · rintro ⟨n, hn, hsome⟩
    by_cases h0 : n = 0
    · simp [h0] at hsome
    · simp only [h0, if_false, Option.some.injEq] at hsome
      subst hsome
      have hlen : (q.take n).length = n := by
        rw [List.length_take]
        omega
      refine ⟨?_, ?_⟩
      · intro hnil
        rw [hnil] at hlen
        simp at hlen
        omega
      · have hpre : q.take n <+: q := List.take_prefix n q
        rw [isLt, Bool.and_eq_true]
        refine ⟨List.isPrefixOf_iff_prefix.mpr hpre, ?_⟩
        simp only [Bool.not_eq_true', beq_eq_false_iff_ne, ne_eq]
        intro heq
        rw [heq] at hlen
        omega
  · rintro ⟨hne, hlt⟩
    rw [isLt, Bool.and_eq_true] at hlt
    have hpre : p <+: q := List.isPrefixOf_iff_prefix.mp hlt.1
    have hne2 : p ≠ q := by
      have := hlt.2
      simp only [Bool.not_eq_true', beq_eq_false_iff_ne, ne_eq] at this
      exact this
    have hlen : p.length < q.length := by
      obtain ⟨t, rfl⟩ := hpre
      have ht : t ≠ [] := by
        intro h
        rw [h] at hne2
        simp at hne2
      have : 0 < t.length := List.length_pos.mpr ht
      simp [List.length_append]
      omega
    refine ⟨p.length, hlen, ?_⟩
    have h0 : p.length ≠ 0 := by
      intro h
      exact hne (List.length_eq_zero.mp h)
    rw [if_neg h0]
    exact congrArg some (List.prefix_iff_eq_take.mp hpre).symm

theorem findNode_insertPath (acc : Acc) (p : SPath) (k : NodeKind) (i : Nat) (q : SPath) :
    findNode (insertPath acc p k i) q
      = if q = p then some (k, i)
        else if q ≠ [] ∧ isLt q p = true ∧ findNode acc q = none then some (.directory, i)
        else findNode acc q := by
  unfold insertPath
  rw [findNode_setPath, findNode_ancFold]
  by_cases hq : q = p
  · simp [hq]
  · rw [if_neg hq]
    by_cases hmem : q ∈ ancPaths p
    · obtain ⟨h1, h2⟩ := (mem_ancPaths q p).mp hmem
      by_cases hA : findNode acc q = none
      · simp [hmem, hA, h1, h2, hq]
      · simp [hA, hq]
    · have hnot1 : ¬ (q ∈ ancPaths p ∧ findNode acc q = none) := fun h => hmem h.1
      have hnot2 : ¬ (q ≠ [] ∧ isLt q p = true ∧ findNode acc q = none) :=
        fun h => hmem ((mem_ancPaths q p).mpr ⟨h.1, h.2.1⟩)
      rw [if_neg hnot1, if_neg hnot2, if_neg hq]

theorem opqCovers_cons (e : SPath × NodeKind) (L : LayerEntries) (p : SPath) :
    opqCovers (e :: L) p = ((e.2 == .owhiteout && isLt e.1 p) || opqCovers L p) := by
  simp [opqCovers]

theorem woCovers_cons (e : SPath × NodeKind) (L : LayerEntries) (p : SPath) :
    woCovers (e :: L) p = ((e.2 == .whiteout && isLe e.1 p) || woCovers L p) := by
  simp [woCovers]

theorem addsAt_cons (e : SPath × NodeKind) (L : LayerEntries) (p : SPath) :
    addsAt (e :: L) p = ((nonmarker e.2 && e.1 == p) || addsAt L p) := by
  simp [addsAt]

theorem underNew_cons (e : SPath × NodeKind) (L : LayerEntries) (p : SPath) :
    underNew (e :: L) p = ((nonmarker e.2 && isLt p e.1) || underNew L p) := by
  simp [underNew]

theorem findNode_phase1 (p : SPath) :
    ∀ (L : LayerEntries) (acc : Acc),
      findNode (phase1 L acc) p = if opqCovers L p = true then none else findNode acc p := by
  intro L
  induction L with
  | nil => intro acc; simp [phase1, opqCovers]
  | cons e L ih =>
      intro acc
      rw [show phase1 (e :: L) acc
          = phase1 L (if (e.2 == NodeKind.owhiteout) = true then removeChildren acc e.1 else acc)
          from rfl]
      rw [ih, opqCovers_cons]
      by_cases ho : (e.2 == NodeKind.owhiteout) = true
      · rw [if_pos ho, ho]
        by_cases hlt : isLt e.1 p = true
        · simp [hlt, findNode_removeChildren]
        · have hlt' : isLt e.1 p = false := by simpa using hlt
          simp [hlt', findNode_removeChildren]
      · rw [if_neg ho]
        have ho' : (e.2 == NodeKind.owhiteout) = false := by simpa using ho
        simp [ho']

theorem findNode_phase3 (p : SPath) :
    ∀ (L : LayerEntries) (acc : Acc),
      findNode (phase3 L acc) p = if woCovers L p = true then none else findNode acc p := by
  intro L
  induction L with
  | nil => intro acc; simp [phase3, woCovers]
  | cons e L ih =>
      intro acc
      rw [show phase3 (e :: L) acc
          = phase3 L (if (e.2 == NodeKind.whiteout) = true then erasePath acc e.1 else acc)
          from rfl]
      rw [ih, woCovers_cons]
      by_cases ho : (e.2 == NodeKind.whiteout) = true
      · rw [if_pos ho, ho]
        by_cases hle : isLe e.1 p = true
        · simp [hle, findNode_erasePath]
        · have hle' : isLe e.1 p = false := by simpa using hle
          simp [hle', findNode_erasePath]
      · rw [if_neg ho]
        have ho' : (e.2 == NodeKind.whiteout) = false := by simpa using ho
        simp [ho']

theorem present_insertPath (acc : Acc) (q : SPath) (k : NodeKind) (i : Nat) (p : SPath) :
    (findNode (insertPath acc q k i) p).isSome = true ↔
      (q = p ∨ (p ≠ [] ∧ isLt p q = true) ∨ (findNode acc p).isSome = true) := by
  rw [findNode_insertPath]
  by_cases h1 : p = q
  · simp [h1]
  · rw [if_neg h1]
    by_cases h2 : p ≠ [] ∧ isLt p q = true ∧ findNode acc p = none
    · have hne : ¬ (q = p) := fun h => h1 h.symm
      simp [h2.1, h2.2.1, h2.2.2, hne]
    · rw [if_neg h2]
      constructor
      · intro h
        right
        right
        exact h
      · rintro (h | h | h)
        · exact absurd h.symm h1
        · by_cases hA : findNode acc p = none
          · exact absurd ⟨h.1, h.2, hA⟩ h2
          · simpa [Option.isSome_iff_ne_none] using hA
        · exact h

theorem present_phase2 (i : Nat) (p : SPath) :
    ∀ (L : LayerEntries) (acc : Acc),
      (findNode (phase2 i L acc) p).isSome = true ↔
        (addsAt L p = true ∨ (p ≠ [] ∧ underNew L p = true) ∨
          (findNode acc p).isSome = true) := by
  intro L
  induction L with
  | nil => intro acc; simp [phase2, addsAt, underNew]
  | cons e L ih =>
      intro acc
      rw [show phase2 i (e :: L) acc
          = phase2 i L (if nonmarker e.2 = true then insertPath acc e.1 e.2 i else acc)
          from rfl]
      rw [addsAt_cons, underNew_cons]
      by_cases hnm : nonmarker e.2 = true
      · rw [if_pos hnm, ih, hnm]
        rw [present_insertPath]
        simp only [Bool.true_and, Bool.or_eq_true, Bool.and_eq_true, beq_iff_eq]
        constructor
        · rintro (h | h | (h | h | h))
          · exact Or.inl (Or.inr h)
          · exact Or.inr (Or.inl ⟨h.1, Or.inr h.2⟩)
          · exact Or.inl (Or.inl h)
          · exact Or.inr (Or.inl ⟨h.1, Or.inl h.2⟩)
          · exact Or.inr (Or.inr h)
        · rintro ((h | h) | ⟨hne, (h | h)⟩ | h)
          · exact Or.inr (Or.inr (Or.inl h))
          · exact Or.inl h
          · exact Or.inr (Or.inr (Or.inr (Or.inl ⟨hne, h⟩)))
          · exact Or.inr (Or.inl ⟨hne, h⟩)
          · exact Or.inr (Or.inr (Or.inr (Or.inr h)))
      · rw [if_neg hnm, ih]
        have hnm' : nonmarker e.2 = false := by simpa using hnm
        simp [hnm']

theorem present_applyLayer (i : Nat) (L : LayerEntries) (acc : Acc) (p : SPath) :
    (findNode (applyLayer i acc L) p).isSome = true ↔
      (woCovers L p = false ∧
        (addsAt L p = true ∨ (p ≠ [] ∧ underNew L p = true) ∨
          (opqCovers L p = false ∧ (findNode acc p).isSome = true))) := by
  unfold applyLayer
  by_cases hw : woCovers L p = true
  · simp [findNode_phase3, hw]
  · have hw' : woCovers L p = false := by simpa using hw
    rw [show findNode (phase3 L (phase2 i L (phase1 L acc))) p
        = findNode (phase2 i L (phase1 L acc)) p from by
      rw [findNode_phase3]
      simp [hw']]
    rw [present_phase2, findNode_phase1]
    by_cases ho : opqCovers L p = true
    · simp [ho, hw']
    · have ho' : opqCovers L p = false := by simpa using ho
      simp [ho', hw']

theorem applyLayers_append :
    ∀ (xs ys : List LayerEntries) (acc : Acc) (i : Nat),
      applyLayers acc i (xs ++ ys)
        = applyLayers (applyLayers acc i xs) (i + xs.length) ys := by
  intro xs
  induction xs with
  | nil => intro ys acc i; simp [applyLayers]
  | cons L xs ih =>
      intro ys acc i
      rw [List.cons_append,
        show applyLayers acc i (L :: (xs ++ ys))
          = applyLayers (applyLayer i acc L) (i + 1) (xs ++ ys) from rfl,
        ih,
        show applyLayers acc i (L :: xs)
          = applyLayers (applyLayer i acc L) (i + 1) xs from rfl]
      congr 1
      · simp
        omega

theorem squashAt_succ (layers : List LayerEntries) (m : Nat) (h : m < layers.length) :
    squashAt layers m
      = applyLayer m (applyLayers [] 0 (layers.take m)) (layerAt layers m) := by
  unfold squashAt
  rw [show layers.take (m + 1) = layers.take m ++ [layerAt layers m] from ?_]
  · rw [applyLayers_append]
    have hlen : (layers.take m).length = m := by
      rw [List.length_take]
      omega
    rw [hlen, Nat.zero_add]
    rfl
  · rw [List.take_succ]
    congr 1
    have h1 : layers[m]? = some (layers.getD m []) := by
      rw [List.getElem?_eq_getElem h, List.getD_eq_getElem layers [] h]
    rw [h1]
    rfl

theorem present_span (layers : List LayerEntries) (P : SPath) :
    ∀ (d m : Nat), m < layers.length →
      (findNode (squashAt layers m) P).isSome = true →
      (∀ k, m < k → k ≤ m + d →
        woCovers (layerAt layers k) P = false ∧ opqCovers (layerAt layers k) P = false) →
      m + d < layers.length →
      (findNode (squashAt layers (m + d)) P).isSome = true := by
  intro d
  induction d with
  | zero => intro m _ h _ _; simpa using h
  | succ d ih =>
      intro m hm h hk hlen
      have hprev : (findNode (squashAt layers (m + d)) P).isSome = true :=
        ih m hm h (fun k h1 h2 => hk k h1 (by omega)) (by omega)
      have hstep := squashAt_succ layers (m + d + 1) (by omega)
      rw [show m + (d + 1) = m + d + 1 from rfl, hstep, present_applyLayer]
      have hw := hk (m + d + 1) (by omega) (by omega)
      refine ⟨hw.1, Or.inr (Or.inr ⟨hw.2, ?_⟩)⟩
      exact hprev

theorem absent_span (layers : List LayerEntries) (P : SPath) :
    ∀ (d m : Nat), m < layers.length →
      (findNode (squashAt layers m) P).isSome = false →
      (∀ k, m < k → k ≤ m + d →
        addsAt (layerAt layers k) P = false ∧ underNew (layerAt layers k) P = false) →
      m + d < layers.length →
      (findNode (squashAt layers (m + d)) P).isSome = false := by
  intro d
  induction d with
  | zero => intro m _ h _ _; simpa using h
  | succ d ih =>
      intro m hm h hk hlen
      have hprev : (findNode (squashAt layers (m + d)) P).isSome = false :=
        ih m hm h (fun k h1 h2 => hk k h1 (by omega)) (by omega)
      have hstep := squashAt_succ layers (m + d + 1) (by omega)
      rw [show m + (d + 1) = m + d + 1 from rfl, hstep]
      have hw := hk (m + d + 1) (by omega) (by omega)
      rw [Bool.eq_false_iff, Ne, present_applyLayer]
      rintro ⟨-, (hadd | hun | ⟨-, hpres⟩)⟩
      · rw [hw.1] at hadd
        exact Bool.false_ne_true hadd
      · rw [hw.2] at hun
        exact Bool.false_ne_true hun.2
      · have hpres2 : (findNode (squashAt layers (m + d)) P).isSome = true := hpres
        rw [hprev] at hpres2
        exact Bool.false_ne_true hpres2

theorem present_at_add (layers : List LayerEntries) (P : SPath) (m : Nat)
    (hm : m < layers.length) (hadd : addsAt (layerAt layers m) P = true)
    (hw : woCovers (layerAt layers m) P = false) :
    (findNode (squashAt layers m) P).isSome = true := by
  rw [squashAt_succ layers m hm, present_applyLayer]
  exact ⟨hw, Or.inl hadd⟩

theorem absent_at_whiteout (layers : List LayerEntries) (P : SPath) (m : Nat)
    (hm : m < layers.length) (hw : woCovers (layerAt layers m) P = true) :
    (findNode (squashAt layers m) P).isSome = false := by
  rw [squashAt_succ layers m hm]
  rw [Bool.eq_false_iff, Ne, present_applyLayer]
  rintro ⟨hw', -⟩
  simp [hw] at hw'

theorem mem_setPath (acc : Acc) (p : SPath) (k : NodeKind) (i : Nat)
    (e : SPath × NodeKind × Nat) (h : e ∈ setPath acc p k i) :
    e ∈ acc ∨ e = (p, k, i) := by
  unfold setPath at h
  by_cases hm : pathMem acc p = true
  · rw [if_pos hm] at h
    obtain ⟨x, hx, hfx⟩ := List.mem_map.mp h
    by_cases hxp : (x.1 == p) = true
    · right
      rw [← hfx]
      simp [hxp]
    · left
      have hxp' : (x.1 == p) = false := by simpa using hxp
      rw [← hfx]
      simp [hxp']
      exact hx
  · rw [if_neg hm] at h
    rcases List.mem_cons.mp h with h | h
    · right; exact h
    · left; exact h

theorem mem_ancFold (i : Nat) :
    ∀ (l : List SPath) (acc : Acc) (e : SPath × NodeKind × Nat),
      e ∈ l.foldl (addAnc i) acc → e ∈ acc ∨ ∃ q, e = (q, NodeKind.directory, i) := by
  intro l
  induction l with
  | nil => intro acc e h; exact Or.inl h
  | cons r l ih =>
      intro acc e h
      rw [List.foldl_cons] at h
      rcases ih (addAnc i acc r) e h with h1 | h1
      · unfold addAnc at h1
        by_cases hm : pathMem acc r = true
        · rw [if_pos hm] at h1
          exact Or.inl h1
        · rw [if_neg hm] at h1
          rcases List.mem_cons.mp h1 with h2 | h2
          · exact Or.inr ⟨r, h2⟩
          · exact Or.inl h2
      · exact Or.inr h1

theorem mem_insertPath (acc : Acc) (p : SPath) (k : NodeKind) (i : Nat)
    (e : SPath × NodeKind × Nat) (h : e ∈ insertPath acc p k i) :
    e ∈ acc ∨ e = (p, k, i) ∨ ∃ q, e = (q, NodeKind.directory, i) := by
  unfold insertPath at h
  rcases mem_setPath _ _ _ _ _ h with h1 | h1
  · rcases mem_ancFold i (ancPaths p) acc e h1 with h2 | h2
    · exact Or.inl h2
    · exact Or.inr (Or.inr h2)
  · exact Or.inr (Or.inl h1)

theorem mem_phase1 (e : SPath × NodeKind × Nat) :
    ∀ (L : LayerEntries) (acc : Acc), e ∈ phase1 L acc → e ∈ acc := by
  intro L
  induction L with
  | nil => intro acc h; exact h
  | cons x L ih =>
      intro acc h
      rw [show phase1 (x :: L) acc
          = phase1 L (if (x.2 == NodeKind.owhiteout) = true then removeChildren acc x.1 else acc)
          from rfl] at h
      have h1 := ih _ h
      by_cases ho : (x.2 == NodeKind.owhiteout) = true
      · rw [if_pos ho] at h1
        exact List.mem_of_mem_filter h1
      · rw [if_neg ho] at h1
        exact h1

theorem mem_phase3 (e : SPath × NodeKind × Nat) :
    ∀ (L : LayerEntries) (acc : Acc), e ∈ phase3 L acc → e ∈ acc := by
  intro L
  induction L with
  | nil => intro acc h; exact h
  | cons x L ih =>
      intro acc h
      rw [show phase3 (x :: L) acc
          = phase3 L (if (x.2 == NodeKind.whiteout) = true then erasePath acc x.1 else acc)
          from rfl] at h
      have h1 := ih _ h
      by_cases ho : (x.2 == NodeKind.whiteout) = true
      · rw [if_pos ho] at h1
        exact List.mem_of_mem_filter h1
      · rw [if_neg ho] at h1
        exact h1

theorem mem_phase2 (i : Nat) (e : SPath × NodeKind × Nat) :
    ∀ (L : LayerEntries) (acc : Acc), e ∈ phase2 i L acc →
      e ∈ acc ∨ nonmarker e.2.1 = true := by
  intro L
  induction L with
  | nil => intro acc h; exact Or.inl h
  | cons x L ih =>
      intro acc h
      rw [show phase2 i (x :: L) acc
          = phase2 i L (if nonmarker x.2 = true then insertPath acc x.1 x.2 i else acc)
          from rfl] at h
      rcases ih _ h with h1 | h1
      · by_cases hnm : nonmarker x.2 = true
        · rw [if_pos hnm] at h1
          rcases mem_insertPath _ _ _ _ _ h1 with h2 | h2 | h2
          · exact Or.inl h2
          · right
            rw [h2]
            exact hnm
          · right
            obtain ⟨q, hq⟩ := h2
            rw [hq]
            rfl
        · rw [if_neg hnm] at h1
          exact Or.inl h1
      · exact Or.inr h1

theorem noMarkers_applyLayer (i : Nat) (acc : Acc) (L : LayerEntries)
    (hacc : ∀ e ∈ acc, nonmarker e.2.1 = true) :
    ∀ e ∈ applyLayer i acc L, nonmarker e.2.1 = true := by
  intro e h
  unfold applyLayer at h
  have h1 := mem_phase3 e L _ h
  rcases mem_phase2 i e L _ h1 with h2 | h2
  · exact hacc e (mem_phase1 e L acc h2)
  · exact h2

theorem noMarkers_applyLayers :
    ∀ (ls : List LayerEntries) (acc : Acc) (i : Nat),
      (∀ e ∈ acc, nonmarker e.2.1 = true) →
      ∀ e ∈ applyLayers acc i ls, nonmarker e.2.1 = true := by
  intro ls
  induction ls with
  | nil => intro acc i hacc e h; exact hacc e h
  | cons L ls ih =>
      intro acc i hacc e h
      exact ih (applyLayer i acc L) (i + 1) (noMarkers_applyLayer i acc L hacc) e h

/-- C1: no squash tree, at any index of any layer sequence, contains a
Whiteout or OpaqueWhiteout node: markers are consumed during squashing and
never inserted into the accumulator. -/
theorem claim_C1_no_markers_in_squash (layers : List LayerEntries) (i : Nat) :
    (squashAt layers i).all (fun e => nonmarker e.2.1) = true := by
  rw [List.all_eq_true]
  intro e h
  exact noMarkers_applyLayers (layers.take (i + 1)) [] 0 (by simp) e h

theorem pathMem_of_mem (acc : Acc) (e : SPath × NodeKind × Nat) (h : e ∈ acc) :
    pathMem acc e.1 = true := by
  rw [pathMem_iff_find]
  intro hnone
  rw [findNode, Option.map_eq_none'] at hnone
  have := List.find?_eq_none.mp hnone e h
  simp at this

theorem isLe_eq_or_lt (p q : SPath) (h : isLe p q = true) :
    p = q ∨ isLt p q = true := by
  by_cases hpq : p = q
  · exact Or.inl hpq
  · right
    rw [isLt, isLe] at *
    rw [h, Bool.true_and]
    simpa using hpq

/-- Tree well-formedness of an accumulator: every nonempty strict ancestor
of a stored path is itself stored (true of every real FileTree, where
nodes hang off their parent directories). -/
def ancClosed (acc : Acc) : Prop :=
  ∀ e ∈ acc, ∀ a : SPath, a ≠ [] → isLt a e.1 = true → pathMem acc a = true

theorem erase_absent_noop (acc : Acc) (p : SPath) (hw : ancClosed acc)
    (hp : p ≠ []) (habs : pathMem acc p = false) : erasePath acc p = acc := by
  unfold erasePath
  rw [List.filter_eq_self]
  intro e he
  rw [Bool.not_eq_eq_eq_not, Bool.not_true]
  by_contra hcon
  have hle : isLe p e.1 = true := by
    by_cases h : isLe p e.1 = true
    · exact h
    · exact absurd (by simpa using h) hcon
  rcases isLe_eq_or_lt p e.1 hle with h1 | h1
  · have := pathMem_of_mem acc e he
    rw [← h1] at this
    simp [this] at habs
  · have := hw e he p hp h1
    simp [this] at habs

/-- Counterexample to C2 as frozen: with layers `[{add /a}, {whiteout /a},
{add /a}]`, the path `/a` is added at layer `i = 0` and whited-out at
layer `j = 1` with no intervening layer, yet it is present in the squash
tree at index `2 ≥ j`, because layer 2 re-adds it — so "absent from every
squash index ≥ j" fails. -/
theorem claim_C2_counterexample :
    addsAt (layerAt [[([ "a" ], NodeKind.regularFile)], [([ "a" ], NodeKind.whiteout)],
        [([ "a" ], NodeKind.regularFile)]] 0) ["a"] = true ∧
    (["a"], NodeKind.whiteout) ∈ layerAt [[([ "a" ], NodeKind.regularFile)],
        [([ "a" ], NodeKind.whiteout)], [([ "a" ], NodeKind.regularFile)]] 1 ∧
    pathMem (squashAt [[([ "a" ], NodeKind.regularFile)], [([ "a" ], NodeKind.whiteout)],
        [([ "a" ], NodeKind.regularFile)]] 2) ["a"] = true := by
  decide

/-- C2 (amended): for a path `P` added in layer `i`, not deleted by layer
`i` itself or any layer strictly between `i` and `j`, and whited-out in
layer `j > i`, `P` is present in every squash tree of `[i, j)`; and it is
absent from every squash tree of `[j, n)` provided — as the counterexample
forces — no layer after `j` re-adds `P` or adds a path below `P`.
Deleting a path absent from a well-formed accumulator is a no-op. -/
theorem claim_C2_whiteout_span (layers : List LayerEntries) (P : SPath)
    (i j : Nat) (hij : i < j) (hj : j < layers.length) (hP : P ≠ [])
    (hadd : addsAt (layerAt layers i) P = true)
    (hwo_i : woCovers (layerAt layers i) P = false)
    (hwo_j : (P, NodeKind.whiteout) ∈ layerAt layers j)
    (hmid : ∀ k, i < k → k < j →
      woCovers (layerAt layers k) P = false ∧ opqCovers (layerAt layers k) P = false)
    (hafter : ∀ k, j < k → k < layers.length →
      addsAt (layerAt layers k) P = false ∧ underNew (layerAt layers k) P = false) :
    (∀ m, i ≤ m → m < j → pathMem (squashAt layers m) P = true) ∧
    (∀ m, j ≤ m → m < layers.length → pathMem (squashAt layers m) P = false) ∧
    (∀ (acc : Acc) (q : SPath), ancClosed acc → q ≠ [] → pathMem acc q = false →
      erasePath acc q = acc) := by
  have hwoj : woCovers (layerAt layers j) P = true := by
    rw [woCovers, List.any_eq_true]
    exact ⟨(P, NodeKind.whiteout), hwo_j,
      by simp [isLe, List.isPrefixOf_iff_prefix]⟩
  refine ⟨?_, ?_, fun acc q hw hq habs => erase_absent_noop acc q hw hq habs⟩
  · intro m him hmj
    have hbase : (findNode (squashAt layers i) P).isSome = true :=
      present_at_add layers P i (by omega) hadd hwo_i
    have hspan := present_span layers P (m - i) i (by omega) hbase
      (fun k h1 h2 => hmid k h1 (by omega)) (by omega)
    have hmi : i + (m - i) = m := by omega
    rw [hmi] at hspan
    exact hspan
  · intro m hjm hmn
    have hbase : (findNode (squashAt layers j) P).isSome = false :=
      absent_at_whiteout layers P j (by omega) hwoj
    have hspan := absent_span layers P (m - j) j (by omega) hbase
      (fun k h1 h2 => hafter k h1 (by omega)) (by omega)
    have hmj2 : j + (m - j) = m := by omega
    rw [hmj2] at hspan
    exact hspan

/-- Witness for the amended C2 at a concrete input. -/
theorem claim_C2_whiteout_span_witness :
    pathMem (squashAt [[([ "a" ], NodeKind.regularFile)], [([ "a" ], NodeKind.whiteout)],
        [([ "b" ], NodeKind.regularFile)]] 0) ["a"] = true ∧
    pathMem (squashAt [[([ "a" ], NodeKind.regularFile)], [([ "a" ], NodeKind.whiteout)],
        [([ "b" ], NodeKind.regularFile)]] 2) ["a"] = false ∧
    erasePath [([ "a" ], NodeKind.regularFile, 0)] ["b"]
      = [([ "a" ], NodeKind.regularFile, 0)] := by
  have h := claim_C2_whiteout_span
    [[([ "a" ], NodeKind.regularFile)], [([ "a" ], NodeKind.whiteout)],
      [([ "b" ], NodeKind.regularFile)]] ["a"] 0 1
    (by decide) (by decide) (by decide) (by decide) (by decide) (by decide)
    (by intro k h1 h2; omega)
    (by
      intro k h1 h2
      have h2x : k < 3 := by simpa using h2
      have hk2 : k = 2 := by omega
      subst hk2
      exact ⟨by decide, by decide⟩)
  refine ⟨h.1 0 (by omega) (by omega), h.2.1 2 (by omega) (by decide), ?_⟩
  refine h.2.2 [([ "a" ], NodeKind.regularFile, 0)] ["b"] ?_ (by decide) (by decide)
  intro e he a ha hlt
  simp only [List.mem_singleton] at he
  subst he
  rw [isLt, Bool.and_eq_true] at hlt
  obtain ⟨t, ht⟩ := List.isPrefixOf_iff_prefix.mp hlt.1
  have hne : a ≠ ["a"] := by simpa using hlt.2
  cases a with
  | nil => exact absurd rfl ha
  | cons x a' =>
      simp only [List.cons_append, List.cons.injEq] at ht
      obtain ⟨hx, hrest⟩ := ht
      exact absurd (by rw [hx, (List.append_eq_nil.mp hrest).1]) hne

/-- C3: an OpaqueWhiteout entry for directory `D` in layer `j` makes every
path `Q` strictly under `D` absent from the squash trees at `j` and every
later index against which no layer from `j` on re-adds `Q` (or adds below
`Q`); children that layer `j` itself adds back — i.e. which survive the
reset because it runs before the layer's adds — are retained, as are
children added back by any later layer. -/
theorem claim_C3_opaque_reset (layers : List LayerEntries) (D Q : SPath) (j : Nat)
    (hj : j < layers.length)
    (hopq : (D, NodeKind.owhiteout) ∈ layerAt layers j)
    (hDQ : isLt D Q = true) :
    (∀ m, j ≤ m → m < layers.length →
      (∀ k, j ≤ k → k ≤ m → addsAt (layerAt layers k) Q = false ∧
        underNew (layerAt layers k) Q = false) →
      pathMem (squashAt layers m) Q = false) ∧
    (addsAt (layerAt layers j) Q = true → woCovers (layerAt layers j) Q = false →
      pathMem (squashAt layers j) Q = true) ∧
    (∀ k m, j ≤ k → k ≤ m → m < layers.length →
      addsAt (layerAt layers k) Q = true → woCovers (layerAt layers k) Q = false →
      (∀ k2, k < k2 → k2 ≤ m →
        woCovers (layerAt layers k2) Q = false ∧ opqCovers (layerAt layers k2) Q = false) →
      pathMem (squashAt layers m) Q = true) := by
  have hopqC : opqCovers (layerAt layers j) Q = true := by
    rw [opqCovers, List.any_eq_true]
    exact ⟨(D, NodeKind.owhiteout), hopq, by simp [hDQ]⟩
  refine ⟨?_, ?_, ?_⟩
  · intro m hjm hmn hk
    have hbase : (findNode (squashAt layers j) Q).isSome = false := by
      rw [squashAt_succ layers j hj, Bool.eq_false_iff, Ne, present_applyLayer]
      rintro ⟨-, (hadd | hun | ⟨ho, -⟩)⟩
      · have := (hk j (by omega) (by omega)).1
        rw [this] at hadd
        exact Bool.false_ne_true hadd
      · have := (hk j (by omega) (by omega)).2
        rw [this] at hun
        exact Bool.false_ne_true hun.2
      · simp [hopqC] at ho
    have hspan := absent_span layers Q (m - j) j (by omega) hbase
      (fun k h1 h2 => hk k (by omega) (by omega)) (by omega)
    have hmj : j + (m - j) = m := by omega
    rw [hmj] at hspan
    exact hspan
  · intro hadd hw
    exact present_at_add layers Q j hj hadd hw
  · intro k m hjk hkm hmn hadd hw hk2
    have hbase : (findNode (squashAt layers k) Q).isSome = true :=
      present_at_add layers Q k (by omega) hadd hw
    have hspan := present_span layers Q (m - k) k (by omega) hbase
      (fun k2 h1 h2 => hk2 k2 h1 (by omega)) (by omega)
    have hmk : k + (m - k) = m := by omega
    rw [hmk] at hspan
    exact hspan

/-- Witness for C3 at a concrete input: layer 1 opaque-resets `/d`; the
pre-existing `/d/x` disappears from squash index 1 while `/d/y`, added
back by layer 1 itself, is retained. -/
theorem claim_C3_opaque_reset_witness :
    pathMem (squashAt [[([ "d" ], NodeKind.directory), (["d", "x"], NodeKind.regularFile)],
        [([ "d" ], NodeKind.owhiteout), (["d", "y"], NodeKind.regularFile)]] 1)
      ["d", "x"] = false ∧
    pathMem (squashAt [[([ "d" ], NodeKind.directory), (["d", "x"], NodeKind.regularFile)],
        [([ "d" ], NodeKind.owhiteout), (["d", "y"], NodeKind.regularFile)]] 1)
      ["d", "y"] = true := by
  constructor
  · refine (claim_C3_opaque_reset _ ["d"] ["d", "x"] 1 (by decide) (by decide)
      (by decide)).1 1 (by omega) (by decide) ?_
    intro k h1 h2
    have hk : k = 1 := by omega
    subst hk
    exact ⟨by decide, by decide⟩
  · exact (claim_C3_opaque_reset _ ["d"] ["d", "y"] 1 (by decide) (by decide)
      (by decide)).2.1 (by decide) (by decide)

theorem any_perm {α : Type} {l l2 : List α} (h : l.Perm l2) (f : α → Bool) :
    l.any f = l2.any f := by
  cases h1 : l.any f <;> cases h2 : l2.any f
  · rfl
  · exfalso
    obtain ⟨x, hx, hfx⟩ := List.any_eq_true.mp h2
    have h3 : l.any f = true := List.any_eq_true.mpr ⟨x, h.mem_iff.mpr hx, hfx⟩
    rw [h1] at h3
    exact Bool.false_ne_true h3
  · exfalso
    obtain ⟨x, hx, hfx⟩ := List.any_eq_true.mp h1
    have h3 : l2.any f = true := List.any_eq_true.mpr ⟨x, h.mem_iff.mp hx, hfx⟩
    rw [h2] at h3
    exact Bool.false_ne_true h3
  · rfl

theorem nmPaths_cons (e : SPath × NodeKind) (L : LayerEntries) :
    nmPaths (e :: L) = if nonmarker e.2 = true then e.1 :: nmPaths L else nmPaths L := by
  by_cases h : nonmarker e.2 = true <;> simp [nmPaths, List.filter_cons, h]

theorem kindAt_cons (e : SPath × NodeKind) (L : LayerEntries) (p : SPath) :
    kindAt (e :: L) p
      = if (nonmarker e.2 && e.1 == p) = true then some e.2 else kindAt L p := by
  by_cases h : (nonmarker e.2 && e.1 == p) = true <;>
    simp [kindAt, List.find?_cons, h]

theorem kindAt_isSome_iff (L : LayerEntries) (p : SPath) :
    (kindAt L p).isSome = true ↔ p ∈ nmPaths L := by
  rw [kindAt, nmPaths, Option.isSome_map', List.find?_isSome]
  simp only [List.mem_map, List.mem_filter, Bool.and_eq_true, beq_iff_eq]
  constructor
  · rintro ⟨x, hx, h1, h2⟩
    exact ⟨x, ⟨hx, h1⟩, h2⟩
  · rintro ⟨x, ⟨hx, h1⟩, h2⟩
    exact ⟨x, hx, h1, h2⟩

theorem kindAt_some_unique :
    ∀ (L : LayerEntries), (nmPaths L).Nodup →
      ∀ (p : SPath) (k : NodeKind), (p, k) ∈ L → nonmarker k = true →
        kindAt L p = some k := by
  intro L
  induction L with
  | nil => intro _ p k h _; simp at h
  | cons e L ih =>
      intro hnd p k h hk
      have hndL : (nmPaths L).Nodup := by
        rw [nmPaths_cons] at hnd
        by_cases hh : nonmarker e.2 = true
        · rw [if_pos hh] at hnd
          exact hnd.of_cons
        · rw [if_neg hh] at hnd
          exact hnd
      rw [kindAt_cons]
      rcases List.mem_cons.mp h with he | he
      · rw [← he]
        simp [hk]
      · by_cases hcond : (nonmarker e.2 && e.1 == p) = true
        · exfalso
          rw [Bool.and_eq_true, beq_iff_eq] at hcond
          have hmemnm : p ∈ nmPaths L := by
            rw [← kindAt_isSome_iff, ih hndL p k he hk]
            rfl
          rw [nmPaths_cons, if_pos hcond.1] at hnd
          rw [hcond.2] at hnd
          exact (List.nodup_cons.mp hnd).1 hmemnm
        · rw [if_neg hcond]
          exact ih hndL p k he hk

theorem kindAt_eq_none_iff (L : LayerEntries) (p : SPath) :
    kindAt L p = none ↔ p ∉ nmPaths L := by
  constructor
  · intro h hm
    rw [← kindAt_isSome_iff, h] at hm
    simp at hm
  · intro h
    cases hk : kindAt L p with
    | none => rfl
    | some k =>
        exfalso
        exact h ((kindAt_isSome_iff L p).mp (by rw [hk]; rfl))

theorem kindAt_perm (L L2 : LayerEntries) (h : L.Perm L2)
    (hnd : (nmPaths L).Nodup) (p : SPath) : kindAt L p = kindAt L2 p := by
  have hperm2 : (nmPaths L).Perm (nmPaths L2) := (h.filter _).map _
  have hnd2 : (nmPaths L2).Nodup := hperm2.nodup_iff.mp hnd
  cases hk : kindAt L p with
  | some k =>
      obtain ⟨e, hfind, he2⟩ := Option.map_eq_some'.mp hk
      have hmem : e ∈ L := List.mem_of_find?_eq_some hfind
      have hpred := List.find?_some hfind
      rw [Bool.and_eq_true, beq_iff_eq] at hpred
      have hmem2 : (p, k) ∈ L2 := by
        have : e = (p, k) := by
          cases e
          simp at he2 hpred ⊢
          exact ⟨hpred.2, he2⟩
        rw [← this]
        exact h.mem_iff.mp hmem
      exact (kindAt_some_unique L2 hnd2 p k hmem2 (by
        have : e.2 = k := he2
        rw [← this]
        exact hpred.1)).symm
  | none =>
      have hni : p ∉ nmPaths L2 := by
        intro hm
        exact (kindAt_eq_none_iff L p).mp hk (hperm2.mem_iff.mpr hm)
      exact ((kindAt_eq_none_iff L2 p).mpr hni).symm

theorem findNode_phase2 (i : Nat) (p : SPath) :
    ∀ (L : LayerEntries), (nmPaths L).Nodup → ∀ (acc : Acc),
      findNode (phase2 i L acc) p =
        match kindAt L p with
        | some k => some (k, i)
        | none =>
            if p ≠ [] ∧ underNew L p = true ∧ findNode acc p = none
            then some (NodeKind.directory, i) else findNode acc p := by
  intro L
  induction L with
  | nil =>
      intro _ acc
      simp [phase2, kindAt, underNew]
  | cons e L ih =>
      intro hnd acc
      have hndL : (nmPaths L).Nodup := by
        rw [nmPaths_cons] at hnd
        by_cases h : nonmarker e.2 = true
        · rw [if_pos h] at hnd
          exact hnd.of_cons
        · rw [if_neg h] at hnd
          exact hnd
      rw [show phase2 i (e :: L) acc
          = phase2 i L (if nonmarker e.2 = true then insertPath acc e.1 e.2 i else acc)
          from rfl]
      rw [ih hndL, kindAt_cons, underNew_cons]
      by_cases hnm : nonmarker e.2 = true
      · rw [if_pos hnm, hnm, Bool.true_and, Bool.true_and]
        by_cases hep : (e.1 == p) = true
        · have hp : e.1 = p := by simpa using hep
          have hkn : kindAt L p = none := by
            rw [kindAt_eq_none_iff]
            rw [nmPaths_cons, if_pos hnm, hp] at hnd
            exact (List.nodup_cons.mp hnd).1
          have hfa : findNode (insertPath acc e.1 e.2 i) p = some (e.2, i) := by
            rw [findNode_insertPath, if_pos hp.symm]
          simp [hep, hkn, hfa]
        · have hep' : (e.1 == p) = false := by simpa using hep
          have hpe : ¬ (p = e.1) := by
            intro hh
            rw [hh] at hep'
            simp at hep'
          cases hknd : kindAt L p with
          | some k =>
              have hfaeq : findNode (phase2 i L (insertPath acc e.1 e.2 i)) p
                  = some (k, i) := by
                rw [ih hndL, hknd]
              simp [hep', hknd]
          | none =>
              by_cases hA : p ≠ [] ∧ isLt p e.1 = true ∧ findNode acc p = none
              · have hfa : findNode (insertPath acc e.1 e.2 i) p
                    = some (NodeKind.directory, i) := by
                  rw [findNode_insertPath, if_neg hpe, if_pos hA]
                simp [hep', hknd, hfa, hA.1, hA.2.1, hA.2.2]
              · have hfa : findNode (insertPath acc e.1 e.2 i) p = findNode acc p := by
                  rw [findNode_insertPath, if_neg hpe, if_neg hA]
                rw [hfa]
                by_cases hc : p ≠ [] ∧ underNew L p = true ∧ findNode acc p = none
                · simp [hep', hknd, hc.1, hc.2.1, hc.2.2]
                · rw [if_neg hc]
                  have hrc : ¬ (p ≠ [] ∧ (isLt p e.1 || underNew L p) = true ∧
                      findNode acc p = none) := by
                    rintro ⟨h1, h2, h3⟩
                    rcases (by simpa using h2 :
                        isLt p e.1 = true ∨ underNew L p = true) with h4 | h4
                    · exact hA ⟨h1, h4, h3⟩
                    · exact hc ⟨h1, h4, h3⟩
                  simp only [hep', hknd]
                  rw [if_neg (by simpa using hep'), if_neg hrc]
      · rw [if_neg hnm]
        have hnm' : nonmarker e.2 = false := by simpa using hnm
        simp [hnm']

/-- The merge of one layer seen through a single path `p`, as a function
of the node previously stored at `p`: erased when a whiteout of the layer
covers `p`; the layer's own node if one is added at `p`; a fresh
intermediate directory when the layer adds strictly below `p` and `p` is
not otherwise present (after the opaque resets); otherwise the previous
node, dropped when an opaque whiteout covers `p`. -/
def applyFind (L : LayerEntries) (i : Nat) (p : SPath)
    (v : Option (NodeKind × Nat)) : Option (NodeKind × Nat) :=
  if woCovers L p = true then none
  else
    match kindAt L p with
    | some k => some (k, i)
    | none =>
        let v1 := if opqCovers L p = true then none else v
        if p ≠ [] ∧ underNew L p = true ∧ v1 = none then some (NodeKind.directory, i)
        else v1

theorem findNode_applyLayer (i : Nat) (L : LayerEntries) (hnd : (nmPaths L).Nodup)
    (acc : Acc) (p : SPath) :
    findNode (applyLayer i acc L) p = applyFind L i p (findNode acc p) := by
  unfold applyLayer applyFind
  rw [findNode_phase3, findNode_phase2 i p L hnd, findNode_phase1]

theorem applyFind_idem (L : LayerEntries) (i : Nat) (p : SPath)
    (v : Option (NodeKind × Nat)) :
    applyFind L i p (applyFind L i p v) = applyFind L i p v := by
  unfold applyFind
  by_cases hw : woCovers L p = true
  · simp [hw]
  · rw [if_neg hw, if_neg hw]
    cases hk : kindAt L p with
    | some k => simp
    | none =>
        dsimp only
        split_ifs <;> simp_all

/-- Counterexample to C4 as frozen: a layer whose enumeration holds two
non-marker entries at the same path is not merged order-independently —
permuting the two entries changes which node the squash records at that
path (the later entry wins). -/
theorem claim_C4_counterexample :
    ([([ "a" ], NodeKind.regularFile), ([ "a" ], NodeKind.symlink)] : LayerEntries).Perm
        [([ "a" ], NodeKind.symlink), ([ "a" ], NodeKind.regularFile)] ∧
    findNode (applyLayer 0 []
        [([ "a" ], NodeKind.regularFile), ([ "a" ], NodeKind.symlink)]) ["a"]
      ≠ findNode (applyLayer 0 []
        [([ "a" ], NodeKind.symlink), ([ "a" ], NodeKind.regularFile)]) ["a"] :=
  ⟨List.Perm.swap _ _ _, by decide⟩

/-- C4 (amended): within one layer the whiteout is applied after the adds,
so a path that is both added and whited-out by the layer is absent from
that layer's squash ("whiteout wins"); and — provided, as the
counterexample forces, no two non-marker entries of the layer share a
path — the per-layer merge is independent of the enumeration order of the
layer's entries and idempotent (merging the layer twice leaves the
accumulator's content unchanged). -/
theorem claim_C4_whiteout_wins_order_independent (L L2 : LayerEntries) (i : Nat)
    (acc : Acc) (P : SPath) (hnd : (nmPaths L).Nodup) :
    ((P, NodeKind.whiteout) ∈ L → pathMem (applyLayer i acc L) P = false) ∧
    (L.Perm L2 → ∀ p, findNode (applyLayer i acc L) p = findNode (applyLayer i acc L2) p) ∧
    (∀ p, findNode (applyLayer i (applyLayer i acc L) L) p
      = findNode (applyLayer i acc L) p) := by
  refine ⟨?_, ?_, ?_⟩
  · intro hmem
    have hwoC : woCovers L P = true := by
      rw [woCovers, List.any_eq_true]
      exact ⟨(P, NodeKind.whiteout), hmem, by simp [isLe, List.isPrefixOf_iff_prefix]⟩
    rw [show pathMem (applyLayer i acc L) P = (findNode (applyLayer i acc L) P).isSome
        from rfl]
    rw [Bool.eq_false_iff, Ne, present_applyLayer]
    rintro ⟨hw, -⟩
    simp [hwoC] at hw
  · intro hperm p
    have hnd2 : (nmPaths L2).Nodup :=
      (((hperm.filter _).map _).nodup_iff).mp hnd
    rw [findNode_applyLayer i L hnd acc p, findNode_applyLayer i L2 hnd2 acc p]
    unfold applyFind
    rw [show woCovers L p = woCovers L2 p from any_perm hperm _,
      show opqCovers L p = opqCovers L2 p from any_perm hperm _,
      show underNew L p = underNew L2 p from any_perm hperm _,
      kindAt_perm L L2 hperm hnd p]
  · intro p
    rw [findNode_applyLayer i L hnd _ p, findNode_applyLayer i L hnd acc p,
      applyFind_idem]

/-- Witness for the amended C4 at a concrete input. -/
theorem claim_C4_whiteout_wins_order_independent_witness :
    pathMem (applyLayer 0 []
        [([ "a" ], NodeKind.regularFile), ([ "a" ], NodeKind.whiteout)]) ["a"] = false ∧
    findNode (applyLayer 0 []
        [([ "a" ], NodeKind.regularFile), ([ "a" ], NodeKind.whiteout)]) ["a"]
      = findNode (applyLayer 0 []
        [([ "a" ], NodeKind.whiteout), ([ "a" ], NodeKind.regularFile)]) ["a"] ∧
    findNode (applyLayer 0 (applyLayer 0 []
        [([ "a" ], NodeKind.regularFile), ([ "a" ], NodeKind.whiteout)])
        [([ "a" ], NodeKind.regularFile), ([ "a" ], NodeKind.whiteout)]) ["a"]
      = findNode (applyLayer 0 []
        [([ "a" ], NodeKind.regularFile), ([ "a" ], NodeKind.whiteout)]) ["a"] := by
  have h := claim_C4_whiteout_wins_order_independent
    [([ "a" ], NodeKind.regularFile), ([ "a" ], NodeKind.whiteout)]
    [([ "a" ], NodeKind.whiteout), ([ "a" ], NodeKind.regularFile)]
    0 [] ["a"] (by decide)
  exact ⟨h.1 (by decide), h.2.1 (List.Perm.swap _ _ _) ["a"], h.2.2 ["a"]⟩
